import Mathlib

/-!
# Verification of the Graham-scan convex-hull pruner

A shallow embedding of `src/Geo/ConvexHull/GrahamScan.cpp`: the
tolerance-aware orientation test (`Sign`, `Direction`), the point
partitioner (`PartitionPoints`), the incremental half-hull builder
(`BuildHalfHull`), and the orchestrating entry point (`PruneInterior`).

Numeric values (`double` in the source) are modelled as exact rationals.
The out-of-scope collaborators (`GeoPoint` subtraction and comparison,
`SearchPoint` location access, the boundary-sequence container) are
modelled from the interface the spec fixes for them: subtraction is
componentwise, comparison is by scalar coordinate, the container is a
list that is replaced wholesale.
-/

set_option maxHeartbeats 1000000

/-- Modelled from the spec: an opaque 2D geographic location with two
ordered scalar coordinates (longitude-like, latitude-like).  The source's
`GeoPoint` with `double`-typed angles, coordinates taken as rationals. -/
structure GeoPoint where
  longitude : ℚ
  latitude : ℚ
deriving DecidableEq, Repr

/-- Modelled from the spec: subtraction of locations yields a planar
delta with the same two components. -/
instance : Sub GeoPoint := ⟨fun a b => ⟨a.longitude - b.longitude, a.latitude - b.latitude⟩⟩

theorem GeoPoint.sub_longitude (a b : GeoPoint) : (a - b).longitude = a.longitude - b.longitude := rfl

theorem GeoPoint.sub_latitude (a b : GeoPoint) : (a - b).latitude = a.latitude - b.latitude := rfl

/-- Modelled from the spec: a boundary element carries a `Point` plus
arbitrary associated payload (identity/metadata) that must survive
pruning unchanged.  The source's `SearchPoint`; the payload stands for
the flat location and projected state it carries along. -/
structure SearchPoint where
  location : GeoPoint
  payload : ℕ
deriving DecidableEq, Repr

instance : Inhabited SearchPoint := ⟨⟨⟨0, 0⟩, 0⟩⟩

/-- `Sign` from GrahamScan.cpp: classify `value` against a symmetric
dead-zone `[-tolerance, tolerance]`. -/
def Sign (value tolerance : ℚ) : Int :=
  if value > tolerance then 1
  else if value < -tolerance then -1
  else 0

/-- `Direction` from GrahamScan.cpp: the turn direction of the path
p0 → p1 → p2, via the scalar cross product of the deltas of p0 and p2
relative to p1, with auto-tolerance when `tolerance` is negative. -/
def Direction (p0 p1 p2 : GeoPoint) (tolerance : ℚ) : Int :=
  let delta_a := p0 - p1
  let delta_b := p2 - p1
  let a := delta_a.longitude * delta_b.latitude
  let b := delta_b.longitude * delta_a.latitude
  let tol := if tolerance < 0 then max |a| |b| / 10 else tolerance
  Sign (a - b) tol

/-- The comparator used to sort the raw points: longitude ascending,
then latitude ascending. -/
def spLt (sp1 sp2 : SearchPoint) : Prop :=
  sp1.location.longitude < sp2.location.longitude ∨
    (sp1.location.longitude = sp2.location.longitude ∧
      sp1.location.latitude < sp2.location.latitude)

instance (a b : SearchPoint) : Decidable (spLt a b) :=
  inferInstanceAs (Decidable (_ ∨ _))

/-- The non-strict order induced by the sort comparator. -/
def spLe (sp1 sp2 : SearchPoint) : Prop := ¬ spLt sp2 sp1

instance (a b : SearchPoint) : Decidable (spLe a b) :=
  inferInstanceAs (Decidable (¬ _))

/-- `std::list::sort` with the longitude-then-latitude comparator is a
stable sort; any stable sorting algorithm produces the same list, so it
is embedded as insertion sort by the complement order. -/
def sortPoints (l : List SearchPoint) : List SearchPoint :=
  l.insertionSort spLe

/-- The classification loop of `GrahamScan::PartitionPoints`: walk the
sorted non-extreme elements tracking the last distinct location
(`loclast`), skip coordinate-duplicates, and route each retained element
to the upper chain (strictly negative direction) or the lower chain. -/
def partitionLoop (left right : SearchPoint) (tolerance : ℚ) :
    GeoPoint → List SearchPoint → List SearchPoint × List SearchPoint
  | _, [] => ([], [])
  | loclast, i :: rest =>
    if loclast.longitude ≠ i.location.longitude ∨ loclast.latitude ≠ i.location.latitude then
      let next := partitionLoop left right tolerance i.location rest
      if Direction left.location right.location i.location tolerance < 0 then
        (i :: next.1, next.2)
      else
        (next.1, i :: next.2)
    else
      partitionLoop left right tolerance loclast rest

/-- The retained (non-skipped) elements of the classification loop,
irrespective of which chain they are routed to. -/
def dedupKeep : GeoPoint → List SearchPoint → List SearchPoint
  | _, [] => []
  | loclast, i :: rest =>
    if loclast.longitude ≠ i.location.longitude ∨ loclast.latitude ≠ i.location.latitude then
      i :: dedupKeep i.location rest
    else
      dedupKeep loclast rest

/-- The output of `GrahamScan::PartitionPoints`: the two extreme points
and the two candidate chains. -/
structure PartitionOut where
  left : SearchPoint
  right : SearchPoint
  upper_partition_points : List SearchPoint
  lower_partition_points : List SearchPoint
deriving DecidableEq, Repr

/-- `GrahamScan::PartitionPoints`: sort the raw points, split off the
extreme `left`/`right`, deduplicate and classify the rest. -/
def PartitionPoints (raw_vector : List SearchPoint) (tolerance : ℚ) : PartitionOut :=
  let raw_points := sortPoints raw_vector
  let left := raw_points.headI
  let right := raw_points.getLastD default
  let middle := (raw_points.drop 1).dropLast
  let chains := partitionLoop left right tolerance left.location middle
  ⟨left, right, chains.1, chains.2⟩

/-- One iteration of the construction loop of `GrahamScan::BuildHalfHull`
on the stack of hull points (head = most recently added): push `i`, then
repeatedly drop the next-to-last point while the last three points fail
the convexity test.  Returns the new stack and whether anything was
dropped. -/
def ghPush (tolerance : ℚ) (factor : Int) (i : SearchPoint) :
    List SearchPoint → List SearchPoint × Bool
  | b :: m :: rest =>
    if factor * Direction m.location i.location b.location tolerance > 0 then
      (i :: b :: m :: rest, false)
    else
      ((ghPush tolerance factor i (m :: rest)).1, true)
  | s => (i :: s, false)

/-- The construction loop of `GrahamScan::BuildHalfHull`, running
`ghPush` over the input sequence and accumulating the `pruned` flag. -/
def scanLoop (tolerance : ℚ) (factor : Int) :
    List SearchPoint → Bool → List SearchPoint → List SearchPoint × Bool
  | stack, pruned, [] => (stack, pruned)
  | stack, pruned, i :: rest =>
    scanLoop tolerance factor (ghPush tolerance factor i stack).1
      (pruned || (ghPush tolerance factor i stack).2) rest

/-- `GrahamScan::BuildHalfHull`: append the shared `right` point to the
input, seed the output with `left`, run the construction loop, and
report the hull (in left-to-right order) plus the `pruned` flag. -/
def BuildHalfHull (left right : SearchPoint) (tolerance : ℚ)
    (input : List SearchPoint) (factor : Int) : List SearchPoint × Bool :=
  ((scanLoop tolerance factor [left] false (input ++ [right])).1.reverse,
    (scanLoop tolerance factor [left] false (input ++ [right])).2)

/-- The first half of `GrahamScan::BuildHull`: the lower hull and its
`pruned` flag, built from the lower candidate chain with factor `1`. -/
def lowerBuild (raw_vector : List SearchPoint) (tolerance : ℚ) :
    List SearchPoint × Bool :=
  BuildHalfHull (PartitionPoints raw_vector tolerance).left
    (PartitionPoints raw_vector tolerance).right tolerance
    (PartitionPoints raw_vector tolerance).lower_partition_points 1

/-- The second half of `GrahamScan::BuildHull`: the upper hull and its
`pruned` flag, built from the upper candidate chain with factor `-1`. -/
def upperBuild (raw_vector : List SearchPoint) (tolerance : ℚ) :
    List SearchPoint × Bool :=
  BuildHalfHull (PartitionPoints raw_vector tolerance).left
    (PartitionPoints raw_vector tolerance).right tolerance
    (PartitionPoints raw_vector tolerance).upper_partition_points (-1)

/-- `GrahamScan::PruneInterior`: the orchestrating entry point.  Returns
the `changed` flag and the (possibly replaced) boundary sequence: all of
`lower_hull` except its last element, then all of `upper_hull` read
back-to-front except the element at index 0. -/
def PruneInterior (raw_vector : List SearchPoint) (tolerance : ℚ) :
    Bool × List SearchPoint :=
  if raw_vector.length < 3 then (false, raw_vector)
  else if (lowerBuild raw_vector tolerance).2 || (upperBuild raw_vector tolerance).2 then
    (true, (lowerBuild raw_vector tolerance).1.dropLast ++
      (upperBuild raw_vector tolerance).1.reverse.dropLast)
  else
    (false, raw_vector)

/-- The signed cross product `a - b` computed inside `Direction`. -/
def dval (p0 p1 p2 : GeoPoint) : ℚ :=
  (p0 - p1).longitude * (p2 - p1).latitude - (p2 - p1).longitude * (p0 - p1).latitude

/-- The effective tolerance used inside `Direction`: the given tolerance
when non-negative, otherwise the scale-adaptive `max(|a|, |b|) / 10`. -/
def effTol (p0 p1 p2 : GeoPoint) (tolerance : ℚ) : ℚ :=
  if tolerance < 0 then
    max |(p0 - p1).longitude * (p2 - p1).latitude| |(p2 - p1).longitude * (p0 - p1).latitude| / 10
  else tolerance

theorem Direction_eq_sign (p0 p1 p2 : GeoPoint) (tolerance : ℚ) :
    Direction p0 p1 p2 tolerance = Sign (dval p0 p1 p2) (effTol p0 p1 p2 tolerance) := rfl

theorem effTol_nonneg (p0 p1 p2 : GeoPoint) (tolerance : ℚ) :
    0 ≤ effTol p0 p1 p2 tolerance := by
  unfold effTol
  split
  · positivity
  · exact le_of_not_lt ‹¬ tolerance < 0›

theorem Sign_eq_one_iff (v t : ℚ) : Sign v t = 1 ↔ t < v := by
  unfold Sign
  split
  · simp_all
  · split <;> simp_all

theorem Sign_le_zero_iff (v t : ℚ) : Sign v t ≤ 0 ↔ v ≤ t := by
  unfold Sign
  split
  · constructor
    · intro h; omega
    · intro h; exact absurd h (not_le_of_lt ‹t < v›)
  · split <;> constructor <;> intro h <;> first | omega | exact le_of_not_lt ‹¬ t < v›

theorem Sign_lt_zero_iff (v t : ℚ) (ht : 0 ≤ t) : Sign v t < 0 ↔ v < -t := by
  unfold Sign
  split
  · constructor
    · intro h; omega
    · intro h; linarith
  · split <;> constructor <;> intro h <;> first | omega | assumption | exact absurd ‹v < -t› (by linarith)

theorem Sign_mem (v t : ℚ) : Sign v t = 1 ∨ Sign v t = 0 ∨ Sign v t = -1 := by
  unfold Sign; split
  · exact Or.inl rfl
  · split
    · exact Or.inr (Or.inr rfl)
    · exact Or.inr (Or.inl rfl)

theorem Direction_eq_one_iff (p0 p1 p2 : GeoPoint) (tol : ℚ) :
    Direction p0 p1 p2 tol = 1 ↔ effTol p0 p1 p2 tol < dval p0 p1 p2 := by
  rw [Direction_eq_sign]; exact Sign_eq_one_iff _ _

theorem Direction_le_zero_iff (p0 p1 p2 : GeoPoint) (tol : ℚ) :
    Direction p0 p1 p2 tol ≤ 0 ↔ dval p0 p1 p2 ≤ effTol p0 p1 p2 tol := by
  rw [Direction_eq_sign]; exact Sign_le_zero_iff _ _

theorem Direction_lt_zero_iff (p0 p1 p2 : GeoPoint) (tol : ℚ) :
    Direction p0 p1 p2 tol < 0 ↔ dval p0 p1 p2 < -effTol p0 p1 p2 tol := by
  rw [Direction_eq_sign]; exact Sign_lt_zero_iff _ _ (effTol_nonneg _ _ _ _)

theorem Direction_pos_iff (p0 p1 p2 : GeoPoint) (tol : ℚ) :
    0 < Direction p0 p1 p2 tol ↔ effTol p0 p1 p2 tol < dval p0 p1 p2 := by
  constructor
  · intro h
    have hmem := Sign_mem (dval p0 p1 p2) (effTol p0 p1 p2 tol)
    rw [Direction_eq_sign] at h
    rcases hmem with h1 | h1 | h1
    · exact (Sign_eq_one_iff _ _).mp h1
    · omega
    · omega
  · intro h
    have := (Direction_eq_one_iff p0 p1 p2 tol).mpr h
    omega

theorem dval_swap23 (a b c : GeoPoint) : dval a c b = -dval a b c := by
  simp only [dval, GeoPoint.sub_longitude, GeoPoint.sub_latitude]; ring

theorem dval_cyc (a b c : GeoPoint) : dval a b c = dval b c a := by
  simp only [dval, GeoPoint.sub_longitude, GeoPoint.sub_latitude]; ring

theorem dval_swap13 (a b c : GeoPoint) : dval c b a = -dval a b c := by
  simp only [dval, GeoPoint.sub_longitude, GeoPoint.sub_latitude]; ring

theorem dval_self_left (a b : GeoPoint) : dval a b a = 0 := by
  simp only [dval, GeoPoint.sub_longitude, GeoPoint.sub_latitude]; ring

theorem effTol_swap13 (a b c : GeoPoint) (tol : ℚ) : effTol c b a tol = effTol a b c tol := by
  unfold effTol
  split
  · rw [max_comm]
  · rfl

/-- The classifier written to the letter of the spec sentence for the
orientation primitive, for comparison with the source's `Direction`. -/
def DirectionBySpec (p0 p1 p2 : GeoPoint) (tolerance : ℚ) : Int :=
  let a := (p0 - p1).longitude * (p2 - p1).latitude
  let b := (p2 - p1).longitude * (p0 - p1).latitude
  let t := if 0 ≤ tolerance then tolerance else max |a| |b| / 10
  if a - b > t then 1 else if a - b < -t then -1 else 0

/-- C3: `Direction` computes `a`, `b` and returns `Sign (a - b, t)` with
`t` the given tolerance when non-negative and `max(|a|, |b|) / 10` when
negative. -/
theorem c3_direction_formula (p0 p1 p2 : GeoPoint) (tolerance : ℚ) :
    Direction p0 p1 p2 tolerance = DirectionBySpec p0 p1 p2 tolerance := by
  unfold Direction DirectionBySpec Sign
  rcases lt_trichotomy tolerance 0 with h | h | h
  · simp [h, not_le_of_lt h]
  · simp [h]
  · simp [not_lt_of_gt h, le_of_lt h]

/-- C8: a boundary sequence with fewer than 3 elements is returned
unchanged with result `false`. -/
theorem c8_degenerate_sizes (raw_vector : List SearchPoint) (tolerance : ℚ)
    (h : raw_vector.length < 3) :
    PruneInterior raw_vector tolerance = (false, raw_vector) := by
  unfold PruneInterior
  simp [h]

theorem c8_degenerate_sizes_witness :
    ([⟨⟨0, 0⟩, 0⟩, ⟨⟨1, 0⟩, 1⟩] : List SearchPoint).length < 3 ∧
      PruneInterior [⟨⟨0, 0⟩, 0⟩, ⟨⟨1, 0⟩, 1⟩] 0 = (false, [⟨⟨0, 0⟩, 0⟩, ⟨⟨1, 0⟩, 1⟩]) :=
  ⟨by decide, c8_degenerate_sizes [⟨⟨0, 0⟩, 0⟩, ⟨⟨1, 0⟩, 1⟩] 0 (by decide)⟩

theorem locNe_of_comp {a b : GeoPoint}
    (h : a.longitude ≠ b.longitude ∨ a.latitude ≠ b.latitude) : a ≠ b := by
  rintro rfl
  rcases h with h | h <;> exact h rfl

theorem partitionLoop_eq (left right : SearchPoint) (tol : ℚ) (ll : GeoPoint)
    (xs : List SearchPoint) :
    partitionLoop left right tol ll xs =
      ((dedupKeep ll xs).filter
          (fun e => decide (Direction left.location right.location e.location tol < 0)),
        (dedupKeep ll xs).filter
          (fun e => ! decide (Direction left.location right.location e.location tol < 0))) := by
  induction xs generalizing ll with
  | nil => simp [partitionLoop, dedupKeep]
  | cons i rest ih =>
    unfold partitionLoop dedupKeep
    split
    · rw [ih i.location]
      by_cases hd : Direction left.location right.location i.location tol < 0 <;>
        simp [hd]
    · exact ih ll

theorem dedupKeep_sublist (ll : GeoPoint) (xs : List SearchPoint) :
    List.Sublist (dedupKeep ll xs) xs := by
  induction xs generalizing ll with
  | nil => simp [dedupKeep]
  | cons i rest ih =>
    unfold dedupKeep
    split
    · exact (ih i.location).cons₂ i
    · exact (ih ll).cons i

theorem dedupKeep_chain (ll : GeoPoint) (xs : List SearchPoint) :
    List.Chain (fun p q : GeoPoint => p ≠ q) ll ((dedupKeep ll xs).map SearchPoint.location) := by
  induction xs generalizing ll with
  | nil => simp [dedupKeep]
  | cons i rest ih =>
    unfold dedupKeep
    split
    · simp only [List.map_cons, List.chain_cons]
      exact ⟨locNe_of_comp ‹_›, ih i.location⟩
    · exact ih ll

/-- C4: a retained element goes to the upper chain exactly when its
direction against the left→right line is strictly negative, to the lower
chain when it is zero or positive; in particular collinear elements land
in the lower chain. -/
theorem c4_partition_classification (raw_vector : List SearchPoint) (tolerance : ℚ) :
    let po := PartitionPoints raw_vector tolerance
    let kept := dedupKeep po.left.location (((sortPoints raw_vector).drop 1).dropLast)
    po.upper_partition_points =
        kept.filter
          (fun e => decide (Direction po.left.location po.right.location e.location tolerance < 0)) ∧
      po.lower_partition_points =
        kept.filter
          (fun e => decide (0 ≤ Direction po.left.location po.right.location e.location tolerance)) ∧
      ∀ e ∈ kept, Direction po.left.location po.right.location e.location tolerance = 0 →
        e ∈ po.lower_partition_points := by
  intro po kept
  have hpo1 : po.upper_partition_points =
      (partitionLoop po.left po.right tolerance po.left.location
        (((sortPoints raw_vector).drop 1).dropLast)).1 := rfl
  have hpo2 : po.lower_partition_points =
      (partitionLoop po.left po.right tolerance po.left.location
        (((sortPoints raw_vector).drop 1).dropLast)).2 := rfl
  rw [partitionLoop_eq] at hpo1 hpo2
  have hcong : (kept.filter
      (fun e => ! decide (Direction po.left.location po.right.location e.location tolerance < 0))) =
      (kept.filter
      (fun e => decide (0 ≤ Direction po.left.location po.right.location e.location tolerance))) := by
    apply List.filter_congr
    intro e _
    by_cases h : Direction po.left.location po.right.location e.location tolerance < 0
    · simp [h, not_le_of_lt h]
    · simp [h, le_of_not_lt h]
  refine ⟨hpo1, hpo2.trans hcong, ?_⟩
  intro e he hdir
  rw [hpo2, hcong]
  exact List.mem_filter.mpr ⟨he, by simp [hdir]⟩

/-- C5: after partitioning, the retained elements (and hence every
element of the two candidate chains) have pairwise-distinct consecutive
locations starting from `left`'s location; the chains are subsequences of
the retained elements, which are a subsequence of the sorted middle. -/
theorem c5_dedup_invariant (raw_vector : List SearchPoint) (tolerance : ℚ) :
    let po := PartitionPoints raw_vector tolerance
    let middle := ((sortPoints raw_vector).drop 1).dropLast
    let kept := dedupKeep po.left.location middle
    List.Chain (fun p q : GeoPoint => p ≠ q) po.left.location (kept.map SearchPoint.location) ∧
      List.Sublist po.upper_partition_points kept ∧
      List.Sublist po.lower_partition_points kept ∧
      List.Sublist kept middle := by
  intro po middle kept
  have hpo1 : po.upper_partition_points =
      (partitionLoop po.left po.right tolerance po.left.location middle).1 := rfl
  have hpo2 : po.lower_partition_points =
      (partitionLoop po.left po.right tolerance po.left.location middle).2 := rfl
  rw [partitionLoop_eq] at hpo1 hpo2
  refine ⟨dedupKeep_chain _ _, ?_, ?_, dedupKeep_sublist _ _⟩
  · rw [hpo1]; exact List.filter_sublist _
  · rw [hpo2]; exact List.filter_sublist _

theorem ghPush_head (tol : ℚ) (f : Int) (i : SearchPoint) (s : List SearchPoint) :
    (ghPush tol f i s).1.head? = some i := by
  induction s with
  | nil => rfl
  | cons b rest ih =>
    cases rest with
    | nil => rfl
    | cons m rest' =>
      unfold ghPush
      split
      · rfl
      · exact ih

theorem ghPush_shape (tol : ℚ) (f : Int) (i : SearchPoint) (s : List SearchPoint) :
    ∃ s', (ghPush tol f i s).1 = i :: s' ∧ List.Sublist s' s := by
  induction s with
  | nil => exact ⟨[], rfl, List.Sublist.refl _⟩
  | cons b rest ih =>
    cases rest with
    | nil => exact ⟨[b], rfl, List.Sublist.refl _⟩
    | cons m rest' =>
      unfold ghPush
      split
      · exact ⟨b :: m :: rest', rfl, List.Sublist.refl _⟩
      · obtain ⟨s', h1, h2⟩ := ih
        exact ⟨s', h1, h2.cons b⟩

theorem ghPush_of_false (tol : ℚ) (f : Int) (i : SearchPoint) (s : List SearchPoint)
    (h : (ghPush tol f i s).2 = false) : (ghPush tol f i s).1 = i :: s := by
  cases s with
  | nil => rfl
  | cons b rest =>
    cases rest with
    | nil => rfl
    | cons m rest' =>
      unfold ghPush at h ⊢
      split at h
      · simp_all [ghPush]
      · simp at h

theorem ghPush_getLast (tol : ℚ) (f : Int) (i : SearchPoint) (s : List SearchPoint)
    (hs : s ≠ []) : (ghPush tol f i s).1.getLast? = s.getLast? := by
  induction s with
  | nil => exact absurd rfl hs
  | cons b rest ih =>
    cases rest with
    | nil => rfl
    | cons m rest' =>
      unfold ghPush
      split
      · rfl
      · rw [ih (by simp)]
        exact List.getLast?_cons_cons.symm

theorem ghPush_length (tol : ℚ) (f : Int) (i : SearchPoint) (s : List SearchPoint) :
    (ghPush tol f i s).1.length ≤ s.length + 1 := by
  induction s with
  | nil => simp [ghPush]
  | cons b rest ih =>
    cases rest with
    | nil => simp [ghPush]
    | cons m rest' =>
      unfold ghPush
      split
      · simp
      · simp only [List.length_cons] at ih ⊢
        omega

theorem ghPush_length_of_true (tol : ℚ) (f : Int) (i : SearchPoint) (s : List SearchPoint)
    (h : (ghPush tol f i s).2 = true) : (ghPush tol f i s).1.length ≤ s.length := by
  cases s with
  | nil => simp [ghPush] at h
  | cons b rest =>
    cases rest with
    | nil => simp [ghPush] at h
    | cons m rest' =>
      unfold ghPush at h ⊢
      by_cases hc : f * Direction m.location i.location b.location tol > 0
      · rw [if_pos hc] at h
        simp at h
      · rw [if_neg hc]
        have := ghPush_length tol f i (m :: rest')
        simp only [List.length_cons] at this ⊢
        omega

theorem scanLoop_ne_nil (tol : ℚ) (f : Int) (input : List SearchPoint) :
    ∀ stack pruned, stack ≠ [] → (scanLoop tol f stack pruned input).1 ≠ [] := by
  induction input with
  | nil => intro stack pruned h; exact h
  | cons i rest ih =>
    intro stack pruned h
    unfold scanLoop
    obtain ⟨s', h1, _⟩ := ghPush_shape tol f i stack
    exact ih _ _ (by rw [h1]; simp)

theorem scanLoop_getLast (tol : ℚ) (f : Int) (input : List SearchPoint) :
    ∀ stack pruned, stack ≠ [] →
      (scanLoop tol f stack pruned input).1.getLast? = stack.getLast? := by
  induction input with
  | nil => intro stack pruned _; rfl
  | cons i rest ih =>
    intro stack pruned h
    unfold scanLoop
    obtain ⟨s', h1, _⟩ := ghPush_shape tol f i stack
    rw [ih _ _ (by rw [h1]; simp)]
    exact ghPush_getLast tol f i stack h

theorem scanLoop_head (tol : ℚ) (f : Int) (input : List SearchPoint) :
    ∀ stack pruned, input ≠ [] →
      (scanLoop tol f stack pruned input).1.head? = input.getLast? := by
  induction input with
  | nil => intro _ _ h; exact absurd rfl h
  | cons i rest ih =>
    intro stack pruned _
    unfold scanLoop
    cases rest with
    | nil => exact (ghPush_head tol f i stack).trans rfl
    | cons j rest' =>
      rw [ih _ _ (by simp)]
      exact List.getLast?_cons_cons.symm

theorem scanLoop_length (tol : ℚ) (f : Int) (input : List SearchPoint) :
    ∀ stack pruned, (scanLoop tol f stack pruned input).1.length ≤ stack.length + input.length := by
  induction input with
  | nil => intro stack pruned; simp [scanLoop]
  | cons i rest ih =>
    intro stack pruned
    unfold scanLoop
    have h1 := ghPush_length tol f i stack
    have h2 := ih (ghPush tol f i stack).1 (pruned || (ghPush tol f i stack).2)
    simp only [List.length_cons]
    omega

theorem scanLoop_flag_mono (tol : ℚ) (f : Int) (input : List SearchPoint) :
    ∀ stack, (scanLoop tol f stack true input).2 = true := by
  induction input with
  | nil => intro stack; rfl
  | cons i rest ih =>
    intro stack
    unfold scanLoop
    simp only [Bool.true_or]
    exact ih _

theorem scanLoop_of_false (tol : ℚ) (f : Int) (input : List SearchPoint) :
    ∀ stack pruned, (scanLoop tol f stack pruned input).2 = false →
      (scanLoop tol f stack pruned input).1 = input.reverse ++ stack ∧ pruned = false := by
  induction input with
  | nil => intro stack pruned h; exact ⟨by simp [scanLoop], h⟩
  | cons i rest ih =>
    intro stack pruned h
    unfold scanLoop at h ⊢
    obtain ⟨h1, h2⟩ := ih _ _ h
    have hp : pruned = false ∧ (ghPush tol f i stack).2 = false := by
      cases hpr : pruned
      · cases hgh : (ghPush tol f i stack).2
        · exact ⟨rfl, rfl⟩
        · rw [hpr, hgh] at h2; simp at h2
      · rw [hpr] at h2; simp at h2
    refine ⟨?_, hp.1⟩
    rw [h1, ghPush_of_false tol f i stack hp.2]
    simp

theorem scanLoop_length_of_true (tol : ℚ) (f : Int) (input : List SearchPoint) :
    ∀ stack, (scanLoop tol f stack false input).2 = true →
      (scanLoop tol f stack false input).1.length + 1 ≤ stack.length + input.length := by
  induction input with
  | nil => intro stack h; simp [scanLoop] at h
  | cons i rest ih =>
    intro stack h
    unfold scanLoop at h ⊢
    cases hgh : (ghPush tol f i stack).2
    · simp only [hgh, Bool.or_false] at h ⊢
      have h3 := ghPush_of_false tol f i stack hgh
      rw [h3] at h ⊢
      have h2 := ih (i :: stack) h
      simp only [List.length_cons] at h2 ⊢
      omega
    · simp only [hgh, Bool.or_true] at h ⊢
      have h1 := ghPush_length_of_true tol f i stack hgh
      have h2 := scanLoop_length tol f rest (ghPush tol f i stack).1 true
      simp only [List.length_cons]
      omega

theorem scanLoop_sublist (tol : ℚ) (f : Int) (input : List SearchPoint) :
    ∀ stack pruned,
      List.Sublist (scanLoop tol f stack pruned input).1 (input.reverse ++ stack) := by
  induction input with
  | nil => intro stack pruned; simpa [scanLoop] using List.Sublist.refl stack
  | cons i rest ih =>
    intro stack pruned
    unfold scanLoop
    obtain ⟨s', h1, h2⟩ := ghPush_shape tol f i stack
    have hstep : List.Sublist (ghPush tol f i stack).1 (i :: stack) := by
      rw [h1]; exact h2.cons₂ i
    have hmain := ih (ghPush tol f i stack).1 (pruned || (ghPush tol f i stack).2)
    refine hmain.trans ?_
    have happ : List.Sublist (rest.reverse ++ (ghPush tol f i stack).1)
        (rest.reverse ++ (i :: stack)) := List.Sublist.append_left hstep _
    simpa [List.append_assoc] using happ

theorem ghPush_length_ge (tol : ℚ) (f : Int) (i : SearchPoint) (s : List SearchPoint)
    (hs : s ≠ []) : 2 ≤ (ghPush tol f i s).1.length := by
  induction s with
  | nil => exact absurd rfl hs
  | cons b rest ih =>
    cases rest with
    | nil => simp [ghPush]
    | cons m rest' =>
      unfold ghPush
      split
      · simp
      · exact ih (by simp)

theorem scanLoop_length_ge (tol : ℚ) (f : Int) (input : List SearchPoint) :
    ∀ stack pruned, stack ≠ [] → input ≠ [] →
      2 ≤ (scanLoop tol f stack pruned input).1.length := by
  induction input with
  | nil => intro _ _ _ h; exact absurd rfl h
  | cons i rest ih =>
    intro stack pruned hs _
    unfold scanLoop
    obtain ⟨s', h1, _⟩ := ghPush_shape tol f i stack
    cases rest with
    | nil =>
      unfold scanLoop
      exact ghPush_length_ge tol f i stack hs
    | cons j rest' =>
      refine ih _ _ ?_ (by simp)
      rw [h1]; simp

theorem BuildHalfHull_head (L R : SearchPoint) (tol : ℚ) (input : List SearchPoint) (f : Int) :
    (BuildHalfHull L R tol input f).1.head? = some L := by
  unfold BuildHalfHull
  rw [List.head?_reverse]
  rw [scanLoop_getLast tol f (input ++ [R]) [L] false (by simp)]
  rfl

theorem BuildHalfHull_last (L R : SearchPoint) (tol : ℚ) (input : List SearchPoint) (f : Int) :
    (BuildHalfHull L R tol input f).1.getLast? = some R := by
  unfold BuildHalfHull
  rw [List.getLast?_reverse]
  rw [scanLoop_head tol f (input ++ [R]) [L] false (by simp)]
  simp

theorem BuildHalfHull_length (L R : SearchPoint) (tol : ℚ) (input : List SearchPoint) (f : Int) :
    (BuildHalfHull L R tol input f).1.length ≤ input.length + 2 := by
  unfold BuildHalfHull
  have := scanLoop_length tol f (input ++ [R]) [L] false
  simp only [List.length_reverse, List.length_append, List.length_cons, List.length_nil] at this ⊢
  omega

theorem BuildHalfHull_length_ge (L R : SearchPoint) (tol : ℚ) (input : List SearchPoint) (f : Int) :
    2 ≤ (BuildHalfHull L R tol input f).1.length := by
  unfold BuildHalfHull
  have := scanLoop_length_ge tol f (input ++ [R]) [L] false (by simp) (by simp)
  simpa using this

theorem BuildHalfHull_length_of_true (L R : SearchPoint) (tol : ℚ) (input : List SearchPoint)
    (f : Int) (h : (BuildHalfHull L R tol input f).2 = true) :
    (BuildHalfHull L R tol input f).1.length ≤ input.length + 1 := by
  unfold BuildHalfHull at h ⊢
  have := scanLoop_length_of_true tol f (input ++ [R]) [L] h
  simp only [List.length_reverse, List.length_append, List.length_cons, List.length_nil] at this ⊢
  omega

theorem BuildHalfHull_of_false (L R : SearchPoint) (tol : ℚ) (input : List SearchPoint)
    (f : Int) (h : (BuildHalfHull L R tol input f).2 = false) :
    (BuildHalfHull L R tol input f).1 = L :: (input ++ [R]) := by
  unfold BuildHalfHull at h ⊢
  obtain ⟨h1, _⟩ := scanLoop_of_false tol f (input ++ [R]) [L] false h
  rw [h1]
  simp

theorem BuildHalfHull_shape (L R : SearchPoint) (tol : ℚ) (input : List SearchPoint) (f : Int) :
    ∃ mid, (BuildHalfHull L R tol input f).1 = L :: mid ++ [R] ∧ List.Sublist mid input := by
  have hh := BuildHalfHull_head L R tol input f
  have hl := BuildHalfHull_last L R tol input f
  have hlen := BuildHalfHull_length_ge L R tol input f
  have hsub : List.Sublist (BuildHalfHull L R tol input f).1 (L :: input ++ [R]) := by
    unfold BuildHalfHull
    have := scanLoop_sublist tol f (input ++ [R]) [L] false
    have hrev := this.reverse
    simpa [List.reverse_append] using hrev
  obtain ⟨x, t, hxt⟩ : ∃ x t, (BuildHalfHull L R tol input f).1 = x :: t := by
    cases hc : (BuildHalfHull L R tol input f).1 with
    | nil => rw [hc] at hh; simp at hh
    | cons x t => exact ⟨x, t, rfl⟩
  have hx : x = L := by rw [hxt] at hh; simpa using hh
  rw [hx] at hxt
  have ht_ne : t ≠ [] := by
    intro hte
    rw [hxt, hte] at hlen; simp at hlen
  have ht_last : t.getLast? = some R := by
    obtain ⟨a, t', rfl⟩ : ∃ a t', t = a :: t' := by
      cases t with
      | nil => exact absurd rfl ht_ne
      | cons a t' => exact ⟨a, t', rfl⟩
    rw [hxt] at hl
    rwa [List.getLast?_cons_cons] at hl
  obtain ⟨mid, hmid⟩ : ∃ mid, t = mid ++ [R] := by
    refine ⟨t.dropLast, ?_⟩
    have := List.dropLast_append_getLast ht_ne
    rw [List.getLast?_eq_getLast t ht_ne] at ht_last
    simp only [Option.some_inj] at ht_last
    rw [ht_last] at this
    exact this.symm
  refine ⟨mid, by rw [hxt, hmid]; rfl, ?_⟩
  have hsub2 : List.Sublist (L :: (mid ++ [R])) (L :: (input ++ [R])) := by
    rw [← hmid, ← hxt]
    simpa using hsub
  have hsub3 : List.Sublist (mid ++ [R]) (input ++ [R]) :=
    List.cons_sublist_cons.mp hsub2
  have hsub4 : List.Sublist (R :: mid.reverse) (R :: input.reverse) := by
    have := hsub3.reverse
    simpa [List.reverse_append] using this
  have hsub5 := (List.cons_sublist_cons).mp hsub4
  have := hsub5.reverse
  simpa using this

theorem filter_length_split {α : Type} (p : α → Bool) (l : List α) :
    (l.filter p).length + (l.filter (fun a => ! p a)).length = l.length := by
  induction l with
  | nil => rfl
  | cons x xs ih =>
    by_cases hx : p x
    · simp [List.filter_cons, hx]
      omega
    · simp [List.filter_cons, hx]
      omega

theorem partitionLoop_length_le (left right : SearchPoint) (tol : ℚ)
    (xs : List SearchPoint) : ∀ ll,
    (partitionLoop left right tol ll xs).1.length +
      (partitionLoop left right tol ll xs).2.length ≤ xs.length := by
  induction xs with
  | nil => intro ll; simp [partitionLoop]
  | cons i rest ih =>
    intro ll
    unfold partitionLoop
    split
    · have := ih i.location
      split <;> simp only [List.length_cons] <;> omega
    · have := ih ll
      simp only [List.length_cons]
      omega

theorem chains_length_le (raw_vector : List SearchPoint) (tolerance : ℚ) :
    (PartitionPoints raw_vector tolerance).upper_partition_points.length +
      (PartitionPoints raw_vector tolerance).lower_partition_points.length ≤
      raw_vector.length - 2 := by
  have hpo1 : (PartitionPoints raw_vector tolerance).upper_partition_points =
      (partitionLoop (PartitionPoints raw_vector tolerance).left
        (PartitionPoints raw_vector tolerance).right tolerance
        (PartitionPoints raw_vector tolerance).left.location
        (((sortPoints raw_vector).drop 1).dropLast)).1 := rfl
  have hpo2 : (PartitionPoints raw_vector tolerance).lower_partition_points =
      (partitionLoop (PartitionPoints raw_vector tolerance).left
        (PartitionPoints raw_vector tolerance).right tolerance
        (PartitionPoints raw_vector tolerance).left.location
        (((sortPoints raw_vector).drop 1).dropLast)).2 := rfl
  have hlen := partitionLoop_length_le (PartitionPoints raw_vector tolerance).left
    (PartitionPoints raw_vector tolerance).right tolerance
    (((sortPoints raw_vector).drop 1).dropLast)
    (PartitionPoints raw_vector tolerance).left.location
  have hmid : (((sortPoints raw_vector).drop 1).dropLast).length = raw_vector.length - 1 - 1 := by
    rw [List.length_dropLast, List.length_drop]
    unfold sortPoints
    rw [(List.perm_insertionSort spLe raw_vector).length_eq]
  rw [hpo1, hpo2]
  omega

theorem PruneInterior_true_eq (raw_vector : List SearchPoint) (tolerance : ℚ)
    (h : (PruneInterior raw_vector tolerance).1 = true) :
    PruneInterior raw_vector tolerance =
        (true, (lowerBuild raw_vector tolerance).1.dropLast ++
          (upperBuild raw_vector tolerance).1.reverse.dropLast) ∧
      ¬ raw_vector.length < 3 ∧
      ((lowerBuild raw_vector tolerance).2 = true ∨ (upperBuild raw_vector tolerance).2 = true) := by
  unfold PruneInterior at h ⊢
  split at h
  · simp at h
  · rename_i h1
    split at h
    · rename_i h2
      rw [if_neg h1, if_pos h2]
      exact ⟨rfl, h1, by simpa using h2⟩
    · simp at h

/-- C7: when neither half-hull build discards a point, `PruneInterior`
returns `false` and the boundary sequence is left exactly as it was. -/
theorem c7_untouched_without_pruning (raw_vector : List SearchPoint) (tolerance : ℚ)
    (h1 : (lowerBuild raw_vector tolerance).2 = false)
    (h2 : (upperBuild raw_vector tolerance).2 = false) :
    PruneInterior raw_vector tolerance = (false, raw_vector) := by
  unfold PruneInterior
  rw [h1, h2]
  simp

theorem c7_untouched_without_pruning_witness :
    (lowerBuild [⟨⟨0, 0⟩, 0⟩, ⟨⟨0, 1⟩, 1⟩, ⟨⟨1, 0⟩, 2⟩] 0).2 = false ∧
      (upperBuild [⟨⟨0, 0⟩, 0⟩, ⟨⟨0, 1⟩, 1⟩, ⟨⟨1, 0⟩, 2⟩] 0).2 = false ∧
      PruneInterior [⟨⟨0, 0⟩, 0⟩, ⟨⟨0, 1⟩, 1⟩, ⟨⟨1, 0⟩, 2⟩] 0 =
        (false, [⟨⟨0, 0⟩, 0⟩, ⟨⟨0, 1⟩, 1⟩, ⟨⟨1, 0⟩, 2⟩]) := by
  have h1 : (lowerBuild [⟨⟨0, 0⟩, 0⟩, ⟨⟨0, 1⟩, 1⟩, ⟨⟨1, 0⟩, 2⟩] 0).2 = false := by
    norm_num [lowerBuild, PartitionPoints, sortPoints, List.insertionSort, List.orderedInsert,
      spLe, spLt, partitionLoop, dedupKeep, BuildHalfHull, scanLoop, ghPush, Direction, Sign,
      GeoPoint.sub_longitude, GeoPoint.sub_latitude]
  have h2 : (upperBuild [⟨⟨0, 0⟩, 0⟩, ⟨⟨0, 1⟩, 1⟩, ⟨⟨1, 0⟩, 2⟩] 0).2 = false := by
    norm_num [upperBuild, PartitionPoints, sortPoints, List.insertionSort, List.orderedInsert,
      spLe, spLt, partitionLoop, dedupKeep, BuildHalfHull, scanLoop, ghPush, Direction, Sign,
      GeoPoint.sub_longitude, GeoPoint.sub_latitude]
  exact ⟨h1, h2, c7_untouched_without_pruning [⟨⟨0, 0⟩, 0⟩, ⟨⟨0, 1⟩, 1⟩, ⟨⟨1, 0⟩, 2⟩] 0 h1 h2⟩

/-- C9: the size of the boundary sequence after `PruneInterior` never
exceeds its size before the call. -/
theorem c9_size_monotone (raw_vector : List SearchPoint) (tolerance : ℚ) :
    (PruneInterior raw_vector tolerance).2.length ≤ raw_vector.length := by
  cases hflag : (PruneInterior raw_vector tolerance).1
  · have : (PruneInterior raw_vector tolerance).2 = raw_vector := by
      unfold PruneInterior at hflag ⊢
      split at hflag
      · rename_i h1; rw [if_pos h1]
      · rename_i h1
        split at hflag
        · simp at hflag
        · rename_i h2; rw [if_neg h1, if_neg h2]
    rw [this]
  · obtain ⟨heq, h1, _⟩ := PruneInterior_true_eq raw_vector tolerance hflag
    rw [heq]
    have hlowlen : (lowerBuild raw_vector tolerance).1.length ≤
        (PartitionPoints raw_vector tolerance).lower_partition_points.length + 2 := by
      unfold lowerBuild
      exact BuildHalfHull_length _ _ _ _ _
    have huplen : (upperBuild raw_vector tolerance).1.length ≤
        (PartitionPoints raw_vector tolerance).upper_partition_points.length + 2 := by
      unfold upperBuild
      exact BuildHalfHull_length _ _ _ _ _
    have hchains := chains_length_le raw_vector tolerance
    simp only [List.length_append, List.length_dropLast, List.length_reverse]
    omega

/-- C10: whenever `PruneInterior` reports a change, the new size of the
boundary sequence is strictly smaller than the original size. -/
theorem c10_true_strict_decrease (raw_vector : List SearchPoint) (tolerance : ℚ)
    (h : (PruneInterior raw_vector tolerance).1 = true) :
    (PruneInterior raw_vector tolerance).2.length < raw_vector.length := by
  obtain ⟨heq, h1, hor⟩ := PruneInterior_true_eq raw_vector tolerance h
  rw [heq]
  have hchains := chains_length_le raw_vector tolerance
  have hlow2 : (lowerBuild raw_vector tolerance).1.length ≤
      (PartitionPoints raw_vector tolerance).lower_partition_points.length + 2 := by
    unfold lowerBuild; exact BuildHalfHull_length _ _ _ _ _
  have hup2 : (upperBuild raw_vector tolerance).1.length ≤
      (PartitionPoints raw_vector tolerance).upper_partition_points.length + 2 := by
    unfold upperBuild; exact BuildHalfHull_length _ _ _ _ _
  have hlowge : 2 ≤ (lowerBuild raw_vector tolerance).1.length := by
    unfold lowerBuild; exact BuildHalfHull_length_ge _ _ _ _ _
  have hupge : 2 ≤ (upperBuild raw_vector tolerance).1.length := by
    unfold upperBuild; exact BuildHalfHull_length_ge _ _ _ _ _
  simp only [List.length_append, List.length_dropLast, List.length_reverse]
  rcases hor with ht | ht
  · have hlow1 : (lowerBuild raw_vector tolerance).1.length ≤
        (PartitionPoints raw_vector tolerance).lower_partition_points.length + 1 := by
      unfold lowerBuild at ht ⊢
      exact BuildHalfHull_length_of_true _ _ _ _ _ ht
    omega
  · have hup1 : (upperBuild raw_vector tolerance).1.length ≤
        (PartitionPoints raw_vector tolerance).upper_partition_points.length + 1 := by
      unfold upperBuild at ht ⊢
      exact BuildHalfHull_length_of_true _ _ _ _ _ ht
    omega

theorem c10_true_strict_decrease_witness :
    (PruneInterior [⟨⟨0, 0⟩, 0⟩, ⟨⟨0, 10⟩, 1⟩, ⟨⟨10, 10⟩, 2⟩, ⟨⟨10, 0⟩, 3⟩, ⟨⟨5, 5⟩, 4⟩] 0).1 =
        true ∧
      (PruneInterior [⟨⟨0, 0⟩, 0⟩, ⟨⟨0, 10⟩, 1⟩, ⟨⟨10, 10⟩, 2⟩, ⟨⟨10, 0⟩, 3⟩, ⟨⟨5, 5⟩, 4⟩] 0).2.length <
        ([⟨⟨0, 0⟩, 0⟩, ⟨⟨0, 10⟩, 1⟩, ⟨⟨10, 10⟩, 2⟩, ⟨⟨10, 0⟩, 3⟩, ⟨⟨5, 5⟩, 4⟩] :
          List SearchPoint).length := by
  have h1 : (PruneInterior [⟨⟨0, 0⟩, 0⟩, ⟨⟨0, 10⟩, 1⟩, ⟨⟨10, 10⟩, 2⟩, ⟨⟨10, 0⟩, 3⟩,
      ⟨⟨5, 5⟩, 4⟩] 0).1 = true := by
    norm_num [PruneInterior, lowerBuild, upperBuild, PartitionPoints, sortPoints,
      List.insertionSort, List.orderedInsert, spLe, spLt, partitionLoop, dedupKeep,
      BuildHalfHull, scanLoop, ghPush, Direction, Sign,
      GeoPoint.sub_longitude, GeoPoint.sub_latitude]
  exact ⟨h1, c10_true_strict_decrease _ 0 h1⟩

/-- The strict lexicographic order on locations that the sort comparator
induces. -/
def locLt (p q : GeoPoint) : Prop :=
  p.longitude < q.longitude ∨ (p.longitude = q.longitude ∧ p.latitude < q.latitude)

instance (p q : GeoPoint) : Decidable (locLt p q) :=
  inferInstanceAs (Decidable (_ ∨ _))

theorem spLt_iff_locLt (a b : SearchPoint) : spLt a b ↔ locLt a.location b.location :=
  Iff.rfl

theorem locLt_trans {p q r : GeoPoint} (h1 : locLt p q) (h2 : locLt q r) : locLt p r := by
  rcases h1 with h1 | ⟨h1, h1'⟩ <;> rcases h2 with h2 | ⟨h2, h2'⟩
  · exact Or.inl (lt_trans h1 h2)
  · exact Or.inl (h2 ▸ h1)
  · exact Or.inl (h1 ▸ h2)
  · exact Or.inr ⟨h1.trans h2, lt_trans h1' h2'⟩

theorem locLt_asymm {p q : GeoPoint} (h : locLt p q) : ¬ locLt q p := by
  rcases h with h | ⟨h, h2⟩ <;> rintro (h3 | ⟨h3, h4⟩) <;> linarith

theorem locLt_irrefl (p : GeoPoint) : ¬ locLt p p := by
  rintro (h | ⟨_, h⟩) <;> exact absurd h (lt_irrefl _)

theorem loc_eq_of_not_lt {p q : GeoPoint} (h1 : ¬ locLt p q) (h2 : ¬ locLt q p) : p = q := by
  unfold locLt at h1 h2
  push_neg at h1 h2
  have hlon : p.longitude = q.longitude := le_antisymm h2.1 h1.1
  have hlat : p.latitude = q.latitude := le_antisymm (h2.2 hlon.symm) (h1.2 hlon)
  cases p; cases q; simp_all

theorem locLt_of_le_of_ne {p q : GeoPoint} (h1 : ¬ locLt q p) (h2 : p ≠ q) : locLt p q := by
  by_cases h : locLt p q
  · exact h
  · exact absurd (loc_eq_of_not_lt h h1) h2

instance : IsTotal SearchPoint spLe :=
  ⟨fun a b => by
    unfold spLe
    by_cases h : spLt b a
    · exact Or.inr (locLt_asymm ((spLt_iff_locLt b a).mp h))
    · exact Or.inl h⟩

instance : IsTrans SearchPoint spLe :=
  ⟨fun a b c h1 h2 => by
    unfold spLe at h1 h2 ⊢
    rw [spLt_iff_locLt] at h1 h2 ⊢
    intro hca
    by_cases hbc : locLt b.location c.location
    · exact h1 (locLt_trans hbc hca)
    · have hbceq : b.location = c.location := loc_eq_of_not_lt hbc h2
      exact h1 (by rw [hbceq]; exact hca)⟩

instance : IsTrans GeoPoint locLt := ⟨fun _ _ _ => locLt_trans⟩

theorem sortPoints_sorted (l : List SearchPoint) : List.Sorted spLe (sortPoints l) :=
  List.sorted_insertionSort spLe l

theorem getLastD_of_ne_nil {α : Type} (l : List α) (d : α) (h : l ≠ []) :
    l.getLastD d = l.getLast h := by
  rw [List.getLastD_eq_getLast? d l, List.getLast?_eq_getLast l h]
  rfl

theorem sorted_split (S : List SearchPoint) (h2 : 2 ≤ S.length) :
    S = S.headI :: (((S.drop 1).dropLast) ++ [S.getLastD default]) := by
  cases S with
  | nil => simp at h2
  | cons a t =>
    have ht : t ≠ [] := by
      intro h; rw [h] at h2; simp at h2
    have hd : (a :: t).getLastD default = t.getLast ht := by
      rw [getLastD_of_ne_nil (a :: t) default (by simp)]
      exact List.getLast_cons ht
    rw [hd]
    simp only [List.headI, List.drop_one, List.tail_cons, List.cons_inj_right]
    conv_lhs => rw [← List.dropLast_append_getLast ht]

theorem chain_locLt_of (l : List SearchPoint) : ∀ x : GeoPoint,
    List.Chain (fun p q : GeoPoint => p ≠ q) x (l.map SearchPoint.location) →
    (∀ e ∈ l, ¬ locLt e.location x) →
    List.Sorted spLe l →
    List.Chain locLt x (l.map SearchPoint.location) := by
  induction l with
  | nil => intro x _ _ _; simp
  | cons e l' ih =>
    intro x hchain hge hsort
    simp only [List.map_cons, List.chain_cons] at hchain ⊢
    refine ⟨locLt_of_le_of_ne (hge e (by simp)) hchain.1, ?_⟩
    refine ih e.location hchain.2 ?_ (List.sorted_cons.mp hsort).2
    intro e' he'
    have := (List.sorted_cons.mp hsort).1 e' he'
    exact this

theorem kept_pairwise (S : List SearchPoint) (hS : List.Sorted spLe S) (h2 : 2 ≤ S.length) :
    List.Pairwise locLt (S.headI.location ::
      (dedupKeep S.headI.location ((S.drop 1).dropLast)).map SearchPoint.location) := by
  have hsplit := sorted_split S h2
  have hkept := dedupKeep_sublist S.headI.location ((S.drop 1).dropLast)
  have hmidsub : List.Sublist ((S.drop 1).dropLast) S := by
    conv_rhs => rw [hsplit]
    exact ((List.sublist_append_left _ _).trans (List.sublist_cons_self _ _))
  have hksorted : List.Sorted spLe (dedupKeep S.headI.location ((S.drop 1).dropLast)) :=
    hS.sublist (hkept.trans hmidsub)
  have hge : ∀ e ∈ dedupKeep S.headI.location ((S.drop 1).dropLast),
      ¬ locLt e.location S.headI.location := by
    intro e he
    have hmem : e ∈ (S.drop 1).dropLast := hkept.mem he
    have hS' : List.Sorted spLe (S.headI :: (((S.drop 1).dropLast) ++ [S.getLastD default])) := by
      rw [← hsplit]; exact hS
    have := (List.sorted_cons.mp hS').1 e (List.mem_append_left _ hmem)
    exact this
  exact List.chain_iff_pairwise.mp
    (chain_locLt_of _ _ (dedupKeep_chain _ _) hge hksorted)

theorem kept_le_right (S : List SearchPoint) (hS : List.Sorted spLe S) (h2 : 2 ≤ S.length) :
    ∀ e ∈ dedupKeep S.headI.location ((S.drop 1).dropLast),
      ¬ locLt (S.getLastD default).location e.location := by
  intro e he
  have hkept := dedupKeep_sublist S.headI.location ((S.drop 1).dropLast)
  have hmem : e ∈ (S.drop 1).dropLast := hkept.mem he
  have hS' : List.Sorted spLe (S.headI :: (((S.drop 1).dropLast) ++ [S.getLastD default])) := by
    rw [← sorted_split S h2]; exact hS
  have htail : List.Sorted spLe (((S.drop 1).dropLast) ++ [S.getLastD default]) :=
    (List.sorted_cons.mp hS').2
  have := (List.pairwise_append.mp htail).2.2 e hmem (S.getLastD default) (by simp)
  exact this

theorem dval_self_right (a b : GeoPoint) : dval a b b = 0 := by
  simp only [dval, GeoPoint.sub_longitude, GeoPoint.sub_latitude]; ring

theorem Sign_zero (t : ℚ) (ht : 0 ≤ t) : Sign 0 t = 0 := by
  unfold Sign
  rw [if_neg (by linarith), if_neg (by linarith)]

theorem Direction_degenerate_right (p0 p1 : GeoPoint) (tol : ℚ) :
    Direction p0 p1 p1 tol = 0 := by
  rw [Direction_eq_sign, dval_self_right]
  exact Sign_zero _ (effTol_nonneg _ _ _ _)

theorem Direction_degenerate_left (p0 p1 : GeoPoint) (tol : ℚ) :
    Direction p0 p1 p0 tol = 0 := by
  rw [Direction_eq_sign, dval_self_left]
  exact Sign_zero _ (effTol_nonneg _ _ _ _)

theorem mem_upper_chain (raw_vector : List SearchPoint) (tolerance : ℚ) :
    ∀ e ∈ (PartitionPoints raw_vector tolerance).upper_partition_points,
      Direction (PartitionPoints raw_vector tolerance).left.location
          (PartitionPoints raw_vector tolerance).right.location e.location tolerance < 0 ∧
        e ∈ dedupKeep (PartitionPoints raw_vector tolerance).left.location
          (((sortPoints raw_vector).drop 1).dropLast) := by
  intro e he
  have hpo : (PartitionPoints raw_vector tolerance).upper_partition_points =
      (partitionLoop (PartitionPoints raw_vector tolerance).left
        (PartitionPoints raw_vector tolerance).right tolerance
        (PartitionPoints raw_vector tolerance).left.location
        (((sortPoints raw_vector).drop 1).dropLast)).1 := rfl
  rw [hpo, partitionLoop_eq] at he
  have := List.mem_filter.mp he
  refine ⟨by simpa using this.2, this.1⟩

theorem mem_lower_chain (raw_vector : List SearchPoint) (tolerance : ℚ) :
    ∀ e ∈ (PartitionPoints raw_vector tolerance).lower_partition_points,
      ¬ (Direction (PartitionPoints raw_vector tolerance).left.location
          (PartitionPoints raw_vector tolerance).right.location e.location tolerance < 0) ∧
        e ∈ dedupKeep (PartitionPoints raw_vector tolerance).left.location
          (((sortPoints raw_vector).drop 1).dropLast) := by
  intro e he
  have hpo : (PartitionPoints raw_vector tolerance).lower_partition_points =
      (partitionLoop (PartitionPoints raw_vector tolerance).left
        (PartitionPoints raw_vector tolerance).right tolerance
        (PartitionPoints raw_vector tolerance).left.location
        (((sortPoints raw_vector).drop 1).dropLast)).2 := rfl
  rw [hpo, partitionLoop_eq] at he
  have := List.mem_filter.mp he
  refine ⟨by simpa using this.2, this.1⟩

theorem mem_upper_loc_ne (raw_vector : List SearchPoint) (tolerance : ℚ) :
    ∀ e ∈ (PartitionPoints raw_vector tolerance).upper_partition_points,
      e.location ≠ (PartitionPoints raw_vector tolerance).left.location ∧
        e.location ≠ (PartitionPoints raw_vector tolerance).right.location := by
  intro e he
  obtain ⟨hdir, _⟩ := mem_upper_chain raw_vector tolerance e he
  constructor
  · intro heq
    rw [heq, Direction_degenerate_left] at hdir
    exact absurd hdir (by omega)
  · intro heq
    rw [heq, Direction_degenerate_right] at hdir
    exact absurd hdir (by omega)

/-- The retained elements of a pruning run, as produced inside
`PartitionPoints`. -/
def keptOf (raw_vector : List SearchPoint) (tolerance : ℚ) : List SearchPoint :=
  dedupKeep (PartitionPoints raw_vector tolerance).left.location
    (((sortPoints raw_vector).drop 1).dropLast)

theorem sortPoints_length (raw_vector : List SearchPoint) :
    (sortPoints raw_vector).length = raw_vector.length :=
  (List.perm_insertionSort spLe raw_vector).length_eq

theorem keptOf_pairwise (raw_vector : List SearchPoint) (tolerance : ℚ)
    (hlen : 2 ≤ raw_vector.length) :
    List.Pairwise locLt ((PartitionPoints raw_vector tolerance).left.location ::
      (keptOf raw_vector tolerance).map SearchPoint.location) :=
  kept_pairwise (sortPoints raw_vector) (sortPoints_sorted raw_vector)
    (by rw [sortPoints_length]; exact hlen)

theorem keptOf_le_right (raw_vector : List SearchPoint) (tolerance : ℚ)
    (hlen : 2 ≤ raw_vector.length) :
    ∀ e ∈ keptOf raw_vector tolerance,
      ¬ locLt (PartitionPoints raw_vector tolerance).right.location e.location :=
  kept_le_right (sortPoints raw_vector) (sortPoints_sorted raw_vector)
    (by rw [sortPoints_length]; exact hlen)

theorem lower_sublist_kept (raw_vector : List SearchPoint) (tolerance : ℚ) :
    List.Sublist (PartitionPoints raw_vector tolerance).lower_partition_points
      (keptOf raw_vector tolerance) := by
  have hpo : (PartitionPoints raw_vector tolerance).lower_partition_points =
      (partitionLoop (PartitionPoints raw_vector tolerance).left
        (PartitionPoints raw_vector tolerance).right tolerance
        (PartitionPoints raw_vector tolerance).left.location
        (((sortPoints raw_vector).drop 1).dropLast)).2 := rfl
  rw [hpo, partitionLoop_eq]
  exact List.filter_sublist _

theorem upper_sublist_kept (raw_vector : List SearchPoint) (tolerance : ℚ) :
    List.Sublist (PartitionPoints raw_vector tolerance).upper_partition_points
      (keptOf raw_vector tolerance) := by
  have hpo : (PartitionPoints raw_vector tolerance).upper_partition_points =
      (partitionLoop (PartitionPoints raw_vector tolerance).left
        (PartitionPoints raw_vector tolerance).right tolerance
        (PartitionPoints raw_vector tolerance).left.location
        (((sortPoints raw_vector).drop 1).dropLast)).1 := rfl
  rw [hpo, partitionLoop_eq]
  exact List.filter_sublist _

theorem ghPush_top_ok (tol : ℚ) (f : Int) (i : SearchPoint) (s : List SearchPoint) :
    ∀ b m rest, (ghPush tol f i s).1 = i :: b :: m :: rest →
      f * Direction m.location i.location b.location tol > 0 := by
  induction s with
  | nil => intro b m rest h; simp [ghPush] at h
  | cons b0 rest0 ih =>
    cases rest0 with
    | nil => intro b m rest h; simp [ghPush] at h
    | cons m0 r0 =>
      intro b m rest h
      unfold ghPush at h
      split at h
      · rename_i hc
        obtain ⟨hb, hm, _⟩ : b0 = b ∧ m0 = m ∧ r0 = rest := by simpa using h
        subst hb; subst hm
        exact hc
      · exact ih b m rest h

theorem scanLoop_last_ghPush (tol : ℚ) (f : Int) (input : List SearchPoint) :
    ∀ stack pruned x, input.getLast? = some x →
      ∃ s0, (scanLoop tol f stack pruned input).1 = (ghPush tol f x s0).1 := by
  induction input with
  | nil => intro _ _ _ h; simp at h
  | cons i rest ih =>
    intro stack pruned x hx
    cases rest with
    | nil =>
      simp only [List.getLast?_singleton, Option.some_inj] at hx
      subst hx
      exact ⟨stack, rfl⟩
    | cons j rest' =>
      rw [List.getLast?_cons_cons] at hx
      exact ih _ _ x hx

theorem lower_interior_ne_rightloc (raw_vector : List SearchPoint) (tolerance : ℚ)
    (hlen : 2 ≤ raw_vector.length) (lm : List SearchPoint)
    (hsh : (lowerBuild raw_vector tolerance).1 =
      (PartitionPoints raw_vector tolerance).left ::
        (lm ++ [(PartitionPoints raw_vector tolerance).right]))
    (hsub : List.Sublist lm
      (PartitionPoints raw_vector tolerance).lower_partition_points) :
    ∀ e ∈ lm, e.location ≠ (PartitionPoints raw_vector tolerance).right.location := by
  intro e he heq
  have hkept_sub : List.Sublist lm (keptOf raw_vector tolerance) :=
    hsub.trans (lower_sublist_kept _ _)
  have hpw : List.Pairwise locLt ((keptOf raw_vector tolerance).map SearchPoint.location) :=
    (keptOf_pairwise raw_vector tolerance hlen).of_cons
  have hpwlm : List.Pairwise locLt (lm.map SearchPoint.location) :=
    hpw.sublist (hkept_sub.map _)
  have hright := keptOf_le_right raw_vector tolerance hlen
  obtain ⟨s, t, hst⟩ := List.append_of_mem he
  have ht : t = [] := by
    cases t with
    | nil => rfl
    | cons x t' =>
      have hx_kept : x ∈ keptOf raw_vector tolerance :=
        hkept_sub.mem (by rw [hst]; simp)
      have h1 : locLt e.location x.location := by
        rw [hst] at hpwlm
        simp only [List.map_append, List.map_cons] at hpwlm
        have h2 := (List.pairwise_append.mp hpwlm).2.1
        exact List.rel_of_pairwise_cons h2 (by simp)
      rw [heq] at h1
      exact absurd h1 (hright x hx_kept)
  subst ht
  have hrev : ((lowerBuild raw_vector tolerance).1).reverse =
      (PartitionPoints raw_vector tolerance).right :: e ::
        (s.reverse ++ [(PartitionPoints raw_vector tolerance).left]) := by
    rw [hsh, hst]
    simp [List.reverse_append]
  have hscan : (scanLoop tolerance 1 [(PartitionPoints raw_vector tolerance).left] false
      ((PartitionPoints raw_vector tolerance).lower_partition_points ++
        [(PartitionPoints raw_vector tolerance).right])).1 =
      ((lowerBuild raw_vector tolerance).1).reverse := by
    unfold lowerBuild BuildHalfHull
    rw [List.reverse_reverse]
  obtain ⟨s0, hs0⟩ := scanLoop_last_ghPush tolerance 1
    ((PartitionPoints raw_vector tolerance).lower_partition_points ++
      [(PartitionPoints raw_vector tolerance).right])
    [(PartitionPoints raw_vector tolerance).left] false
    (PartitionPoints raw_vector tolerance).right (by simp)
  obtain ⟨m, rest, hmr⟩ : ∃ m rest,
      s.reverse ++ [(PartitionPoints raw_vector tolerance).left] = m :: rest := by
    cases hc : s.reverse ++ [(PartitionPoints raw_vector tolerance).left] with
    | nil => exact absurd hc (by simp)
    | cons m rest => exact ⟨m, rest, rfl⟩
  have hform : (ghPush tolerance 1 (PartitionPoints raw_vector tolerance).right s0).1 =
      (PartitionPoints raw_vector tolerance).right :: e :: m :: rest := by
    rw [← hs0, hscan, hrev, hmr]
  have htest := ghPush_top_ok tolerance 1 (PartitionPoints raw_vector tolerance).right s0
    e m rest hform
  rw [heq, Direction_degenerate_right] at htest
  simp at htest

theorem prune_structure (raw_vector : List SearchPoint) (tolerance : ℚ)
    (h : (PruneInterior raw_vector tolerance).1 = true) :
    ∃ lm um,
      (lowerBuild raw_vector tolerance).1 =
        (PartitionPoints raw_vector tolerance).left ::
          (lm ++ [(PartitionPoints raw_vector tolerance).right]) ∧
      (upperBuild raw_vector tolerance).1 =
        (PartitionPoints raw_vector tolerance).left ::
          (um ++ [(PartitionPoints raw_vector tolerance).right]) ∧
      (PruneInterior raw_vector tolerance).2 =
        (PartitionPoints raw_vector tolerance).left ::
          (lm ++ (PartitionPoints raw_vector tolerance).right :: um.reverse) ∧
      List.Sublist lm (PartitionPoints raw_vector tolerance).lower_partition_points ∧
      List.Sublist um (PartitionPoints raw_vector tolerance).upper_partition_points := by
  obtain ⟨heq, h1, _⟩ := PruneInterior_true_eq raw_vector tolerance h
  obtain ⟨lm, hlm, hlm_sub⟩ := BuildHalfHull_shape
    (PartitionPoints raw_vector tolerance).left (PartitionPoints raw_vector tolerance).right
    tolerance (PartitionPoints raw_vector tolerance).lower_partition_points 1
  obtain ⟨um, hum, hum_sub⟩ := BuildHalfHull_shape
    (PartitionPoints raw_vector tolerance).left (PartitionPoints raw_vector tolerance).right
    tolerance (PartitionPoints raw_vector tolerance).upper_partition_points (-1)
  have hlm' : (lowerBuild raw_vector tolerance).1 =
      (PartitionPoints raw_vector tolerance).left ::
        (lm ++ [(PartitionPoints raw_vector tolerance).right]) := hlm
  have hum' : (upperBuild raw_vector tolerance).1 =
      (PartitionPoints raw_vector tolerance).left ::
        (um ++ [(PartitionPoints raw_vector tolerance).right]) := hum
  refine ⟨lm, um, hlm', hum', ?_, hlm_sub, hum_sub⟩
  rw [heq]
  simp only
  rw [hlm', hum']
  have hd1 : ((PartitionPoints raw_vector tolerance).left ::
      (lm ++ [(PartitionPoints raw_vector tolerance).right])).dropLast =
      (PartitionPoints raw_vector tolerance).left :: lm := by
    have : (PartitionPoints raw_vector tolerance).left ::
        (lm ++ [(PartitionPoints raw_vector tolerance).right]) =
        ((PartitionPoints raw_vector tolerance).left :: lm) ++
          [(PartitionPoints raw_vector tolerance).right] := by simp
    rw [this, List.dropLast_concat]
  have hd2 : ((PartitionPoints raw_vector tolerance).left ::
      (um ++ [(PartitionPoints raw_vector tolerance).right])).reverse.dropLast =
      (PartitionPoints raw_vector tolerance).right :: um.reverse := by
    rw [List.reverse_cons, List.reverse_append]
    simp only [List.reverse_cons, List.reverse_nil, List.nil_append]
    have : ([(PartitionPoints raw_vector tolerance).right] ++ um.reverse) ++
        [(PartitionPoints raw_vector tolerance).left] =
        ((PartitionPoints raw_vector tolerance).right :: um.reverse) ++
          [(PartitionPoints raw_vector tolerance).left] := by simp
    rw [this, List.dropLast_concat]
  rw [hd1, hd2]
  simp

theorem BuildHalfHull_nil_flag (L R : SearchPoint) (tol : ℚ) (f : Int) :
    (BuildHalfHull L R tol [] f).2 = false := by
  simp [BuildHalfHull, scanLoop, ghPush]

theorem left_ne_right_of_true (raw_vector : List SearchPoint) (tolerance : ℚ)
    (h : (PruneInterior raw_vector tolerance).1 = true) :
    (PartitionPoints raw_vector tolerance).left.location ≠
      (PartitionPoints raw_vector tolerance).right.location := by
  obtain ⟨_, h1, hor⟩ := PruneInterior_true_eq raw_vector tolerance h
  have hlen : 2 ≤ raw_vector.length := by omega
  have hchain : (PartitionPoints raw_vector tolerance).lower_partition_points ≠ [] ∨
      (PartitionPoints raw_vector tolerance).upper_partition_points ≠ [] := by
    rcases hor with ht | ht
    · left
      intro hnil
      unfold lowerBuild at ht
      rw [hnil, BuildHalfHull_nil_flag] at ht
      simp at ht
    · right
      intro hnil
      unfold upperBuild at ht
      rw [hnil, BuildHalfHull_nil_flag] at ht
      simp at ht
  have hkept_ne : ∃ k, k ∈ keptOf raw_vector tolerance := by
    rcases hchain with hc | hc
    · obtain ⟨k, hk⟩ := List.exists_mem_of_ne_nil _ hc
      exact ⟨k, (lower_sublist_kept raw_vector tolerance).mem hk⟩
    · obtain ⟨k, hk⟩ := List.exists_mem_of_ne_nil _ hc
      exact ⟨k, (upper_sublist_kept raw_vector tolerance).mem hk⟩
  obtain ⟨k, hk⟩ := hkept_ne
  have h2 : locLt (PartitionPoints raw_vector tolerance).left.location k.location :=
    List.rel_of_pairwise_cons (keptOf_pairwise raw_vector tolerance hlen)
      (List.mem_map_of_mem SearchPoint.location hk)
  have h3 := keptOf_le_right raw_vector tolerance hlen k hk
  intro heq
  rw [heq] at h2
  exact h3 h2

theorem result_counts (raw_vector : List SearchPoint) (tolerance : ℚ)
    (h : (PruneInterior raw_vector tolerance).1 = true) :
    ((PruneInterior raw_vector tolerance).2).count
        (PartitionPoints raw_vector tolerance).left = 1 ∧
      ((PruneInterior raw_vector tolerance).2).count
        (PartitionPoints raw_vector tolerance).right = 1 := by
  obtain ⟨lm, um, hlm, hum, hw, hlm_sub, hum_sub⟩ := prune_structure raw_vector tolerance h
  obtain ⟨_, h1, _⟩ := PruneInterior_true_eq raw_vector tolerance h
  have hlen : 2 ≤ raw_vector.length := by omega
  have hlocne := left_ne_right_of_true raw_vector tolerance h
  have hLR : (PartitionPoints raw_vector tolerance).left ≠
      (PartitionPoints raw_vector tolerance).right :=
    fun he => hlocne (congrArg SearchPoint.location he)
  have hlm_left : ∀ e ∈ lm, e ≠ (PartitionPoints raw_vector tolerance).left := by
    intro e he heq
    have hk : e ∈ keptOf raw_vector tolerance :=
      (hlm_sub.trans (lower_sublist_kept _ _)).mem he
    have hlt : locLt (PartitionPoints raw_vector tolerance).left.location e.location :=
      List.rel_of_pairwise_cons (keptOf_pairwise raw_vector tolerance hlen)
        (List.mem_map_of_mem SearchPoint.location hk)
    rw [heq] at hlt
    exact locLt_irrefl _ hlt
  have hlm_right : ∀ e ∈ lm, e ≠ (PartitionPoints raw_vector tolerance).right := by
    intro e he heq
    exact lower_interior_ne_rightloc raw_vector tolerance hlen lm hlm hlm_sub e he
      (congrArg SearchPoint.location heq)
  have hum_left : ∀ e ∈ um.reverse, e ≠ (PartitionPoints raw_vector tolerance).left := by
    intro e he heq
    have := (mem_upper_loc_ne raw_vector tolerance e
      (hum_sub.mem (List.mem_reverse.mp he))).1
    exact this (congrArg SearchPoint.location heq)
  have hum_right : ∀ e ∈ um.reverse, e ≠ (PartitionPoints raw_vector tolerance).right := by
    intro e he heq
    have := (mem_upper_loc_ne raw_vector tolerance e
      (hum_sub.mem (List.mem_reverse.mp he))).2
    exact this (congrArg SearchPoint.location heq)
  rw [hw]
  constructor
  · rw [List.count_cons_self, List.count_append, List.count_cons_of_ne hLR]
    rw [List.count_eq_zero.mpr (fun hmem => hlm_left _ hmem rfl),
      List.count_eq_zero.mpr (fun hmem => hum_left _ hmem rfl)]
  · rw [List.count_cons_of_ne (Ne.symm hLR), List.count_append, List.count_cons_self]
    rw [List.count_eq_zero.mpr (fun hmem => hlm_right _ hmem rfl),
      List.count_eq_zero.mpr (fun hmem => hum_right _ hmem rfl)]

/-- C2: on a `true` result the final sequence is all of `lower_hull`
except its last element followed by `upper_hull` read back-to-front
except the last element of that reading (which is `left`, the first
element of `lower_hull`), i.e. `left`, the lower chain, `right`, the
reversed upper chain, with each shared endpoint appearing exactly once. -/
theorem c2_reassembly (raw_vector : List SearchPoint) (tolerance : ℚ)
    (h : (PruneInterior raw_vector tolerance).1 = true) :
    (PruneInterior raw_vector tolerance).2 =
        (lowerBuild raw_vector tolerance).1.dropLast ++
          (upperBuild raw_vector tolerance).1.reverse.dropLast ∧
      ((upperBuild raw_vector tolerance).1.reverse).getLast? =
        some (PartitionPoints raw_vector tolerance).left ∧
      (lowerBuild raw_vector tolerance).1.head? =
        some (PartitionPoints raw_vector tolerance).left ∧
      (∃ lm um,
        (lowerBuild raw_vector tolerance).1 =
          (PartitionPoints raw_vector tolerance).left ::
            (lm ++ [(PartitionPoints raw_vector tolerance).right]) ∧
        (upperBuild raw_vector tolerance).1 =
          (PartitionPoints raw_vector tolerance).left ::
            (um ++ [(PartitionPoints raw_vector tolerance).right]) ∧
        (PruneInterior raw_vector tolerance).2 =
          (PartitionPoints raw_vector tolerance).left ::
            (lm ++ (PartitionPoints raw_vector tolerance).right :: um.reverse)) ∧
      ((PruneInterior raw_vector tolerance).2).count
        (PartitionPoints raw_vector tolerance).left = 1 ∧
      ((PruneInterior raw_vector tolerance).2).count
        (PartitionPoints raw_vector tolerance).right = 1 := by
  obtain ⟨heq, _, _⟩ := PruneInterior_true_eq raw_vector tolerance h
  obtain ⟨lm, um, hlm, hum, hw, _, _⟩ := prune_structure raw_vector tolerance h
  obtain ⟨hc1, hc2⟩ := result_counts raw_vector tolerance h
  refine ⟨by rw [heq], ?_, ?_, ⟨lm, um, hlm, hum, hw⟩, hc1, hc2⟩
  · rw [List.getLast?_reverse]
    unfold upperBuild
    exact BuildHalfHull_head _ _ _ _ _
  · unfold lowerBuild
    exact BuildHalfHull_head _ _ _ _ _

theorem c2_reassembly_witness :
    (PruneInterior [⟨⟨0, 0⟩, 0⟩, ⟨⟨0, 10⟩, 1⟩, ⟨⟨10, 10⟩, 2⟩, ⟨⟨10, 0⟩, 3⟩, ⟨⟨5, 5⟩, 4⟩] 0).1 =
        true ∧
      (PruneInterior [⟨⟨0, 0⟩, 0⟩, ⟨⟨0, 10⟩, 1⟩, ⟨⟨10, 10⟩, 2⟩, ⟨⟨10, 0⟩, 3⟩, ⟨⟨5, 5⟩, 4⟩] 0).2 =
          (lowerBuild [⟨⟨0, 0⟩, 0⟩, ⟨⟨0, 10⟩, 1⟩, ⟨⟨10, 10⟩, 2⟩, ⟨⟨10, 0⟩, 3⟩, ⟨⟨5, 5⟩, 4⟩] 0).1.dropLast ++
            (upperBuild [⟨⟨0, 0⟩, 0⟩, ⟨⟨0, 10⟩, 1⟩, ⟨⟨10, 10⟩, 2⟩, ⟨⟨10, 0⟩, 3⟩, ⟨⟨5, 5⟩, 4⟩] 0).1.reverse.dropLast := by
  have h1 : (PruneInterior [⟨⟨0, 0⟩, 0⟩, ⟨⟨0, 10⟩, 1⟩, ⟨⟨10, 10⟩, 2⟩, ⟨⟨10, 0⟩, 3⟩,
      ⟨⟨5, 5⟩, 4⟩] 0).1 = true := by
    norm_num [PruneInterior, lowerBuild, upperBuild, PartitionPoints, sortPoints,
      List.insertionSort, List.orderedInsert, spLe, spLt, partitionLoop, dedupKeep,
      BuildHalfHull, scanLoop, ghPush, Direction, Sign,
      GeoPoint.sub_longitude, GeoPoint.sub_latitude]
  exact ⟨h1, (c2_reassembly _ 0 h1).1⟩

theorem jr_core_fixed (ex ey Xx Xy Ux Uy tol : ℚ)
    (hex : ex ≤ 0) (hXx : Xx ≤ 0) (hUx : Ux ≤ 0) (hexX : ex ≤ Xx) (hexU : ex ≤ Ux)
    (htol : 0 ≤ tol)
    (h1 : -tol ≤ ex * Xy - Xx * ey) (h2 : ex * Uy - Ux * ey < -tol) :
    Xx * Uy - Ux * Xy ≤ tol := by
  rcases eq_or_lt_of_le hex with heq | hlt
  · have hXx0 : Xx = 0 := le_antisymm hXx (heq ▸ hexX)
    have hUx0 : Ux = 0 := le_antisymm hUx (heq ▸ hexU)
    rw [hXx0, hUx0]
    simpa using htol
  · by_contra hv
    push_neg at hv
    have hid : (Xx * Uy - Ux * Xy) * ex =
        (ex * Uy - Ux * ey) * Xx - (ex * Xy - Xx * ey) * Ux := by ring
    have hA : (ex * Uy - Ux * ey) * Xx ≥ (-tol) * Xx :=
      mul_le_mul_of_nonpos_right (le_of_lt h2) hXx
    have hB : (ex * Xy - Xx * ey) * Ux ≤ (-tol) * Ux :=
      mul_le_mul_of_nonpos_right h1 hUx
    have hC : (Xx * Uy - Ux * Xy) * ex < tol * ex :=
      (mul_lt_mul_right_of_neg hlt).mpr hv
  -- combine: tol*ex > v3*ex ≥ (-tol)*Xx - (-tol)*Ux = tol*(Ux - Xx)
    nlinarith [hA, hB, hC, hid]

theorem jr_core_auto (ex ey Xx Xy Ux Uy : ℚ)
    (hex : ex ≤ 0) (hXx : Xx ≤ 0) (hUx : Ux ≤ 0) (hexX : ex ≤ Xx) (hexU : ex ≤ Ux)
    (h1 : -(max |ex * Xy| |Xx * ey| / 10) ≤ ex * Xy - Xx * ey)
    (h2 : ex * Uy - Ux * ey < -(max |ex * Uy| |Ux * ey| / 10)) :
    Xx * Uy - Ux * Xy ≤ max |Xx * Uy| |Ux * Xy| / 10 := by
  have hmax3 : (0 : ℚ) ≤ max |Xx * Uy| |Ux * Xy| / 10 := by positivity
  rcases eq_or_lt_of_le hex with heq | hlt
  · have hXx0 : Xx = 0 := le_antisymm hXx (heq ▸ hexX)
    have hUx0 : Ux = 0 := le_antisymm hUx (heq ▸ hexU)
    rw [hXx0, hUx0]
    simpa using hmax3
  · have hid : (Xx * Uy - Ux * Xy) * ex =
        (ex * Uy - Ux * ey) * Xx - (ex * Xy - Xx * ey) * Ux := by ring
    rcases le_or_lt |Xx * ey| |ex * Xy| with harm | harm
    · -- T1 arm |ex * Xy|: v3 ≤ |Ux * Xy| / 10
      have h1' : -(|ex * Xy| / 10) ≤ ex * Xy - Xx * ey := by
        rw [max_eq_left harm] at h1
        exact h1
      have hA : (0 : ℚ) ≤ (ex * Uy - Ux * ey) * Xx := by
        have h2' : ex * Uy - Ux * ey ≤ 0 := by
          have : (0 : ℚ) ≤ max |ex * Uy| |Ux * ey| / 10 := by positivity
          linarith
        nlinarith [h2', hXx]
      have hB : (ex * Xy - Xx * ey) * Ux ≤ -(|ex * Xy| / 10) * Ux :=
        mul_le_mul_of_nonpos_right h1' hUx
      have hkey : (Xx * Uy - Ux * Xy) * ex ≥ |ex * Xy| / 10 * Ux := by
        rw [hid]
        nlinarith [hA, hB]
      by_contra hv
      push_neg at hv
      have hgoal2 : |Ux * Xy| / 10 < Xx * Uy - Ux * Xy := by
        have : |Ux * Xy| / 10 ≤ max |Xx * Uy| |Ux * Xy| / 10 := by
          have := le_max_right |Xx * Uy| |Ux * Xy|
          linarith
        linarith
      have hC : (Xx * Uy - Ux * Xy) * ex < |Ux * Xy| / 10 * ex := by
        nlinarith [hgoal2, hlt]
      have heq1 : |Ux * Xy| * ex = |ex * Xy| * Ux := by
        rw [abs_mul, abs_mul, abs_of_nonpos hUx, abs_of_nonpos hex]
        ring
      nlinarith [hkey, hC, heq1]
    · -- T1 arm |Xx * ey|: v3 ≤ 0
      have h1' : -(|Xx * ey| / 10) ≤ ex * Xy - Xx * ey := by
        rw [max_eq_right (le_of_lt harm)] at h1
        exact h1
      have h2' : ex * Uy - Ux * ey ≤ -(|Ux * ey| / 10) := by
        have : |Ux * ey| ≤ max |ex * Uy| |Ux * ey| := le_max_right _ _
        linarith
      have hA : (ex * Uy - Ux * ey) * Xx ≥ -(|Ux * ey| / 10) * Xx :=
        mul_le_mul_of_nonpos_right h2' hXx
      have hB : (ex * Xy - Xx * ey) * Ux ≤ -(|Xx * ey| / 10) * Ux :=
        mul_le_mul_of_nonpos_right h1' hUx
      have heq1 : |Ux * ey| * Xx = |Xx * ey| * Ux := by
        rw [abs_mul, abs_mul, abs_of_nonpos hUx, abs_of_nonpos hXx]
        ring
      have hkey : (0 : ℚ) ≤ (Xx * Uy - Ux * Xy) * ex := by
        rw [hid]
        nlinarith [hA, hB, heq1]
      have hv3 : Xx * Uy - Ux * Xy ≤ 0 := by
        by_contra hv
        push_neg at hv
        nlinarith [hkey, hv, hlt]
      linarith

theorem junction_right (L R x u : GeoPoint) (tol : ℚ)
    (hx : ¬ (Direction L R x tol < 0)) (hu : Direction L R u tol < 0)
    (hLx : L.longitude ≤ x.longitude) (hXx : x.longitude ≤ R.longitude)
    (hLu : L.longitude ≤ u.longitude) (hUx : u.longitude ≤ R.longitude)
    (hLR : L.longitude ≤ R.longitude) :
    Direction x R u tol ≤ 0 := by
  rw [Direction_lt_zero_iff, not_lt] at hx
  rw [Direction_lt_zero_iff] at hu
  rw [Direction_le_zero_iff]
  by_cases htol : tol < 0
  · simp only [dval, effTol, GeoPoint.sub_longitude, GeoPoint.sub_latitude,
      if_pos htol] at hx hu ⊢
    exact jr_core_auto (L.longitude - R.longitude) (L.latitude - R.latitude)
      (x.longitude - R.longitude) (x.latitude - R.latitude)
      (u.longitude - R.longitude) (u.latitude - R.latitude)
      (by linarith) (by linarith) (by linarith) (by linarith) (by linarith) hx hu
  · simp only [dval, effTol, GeoPoint.sub_longitude, GeoPoint.sub_latitude,
      if_neg htol] at hx hu ⊢
    exact jr_core_fixed (L.longitude - R.longitude) (L.latitude - R.latitude)
      (x.longitude - R.longitude) (x.latitude - R.latitude)
      (u.longitude - R.longitude) (u.latitude - R.latitude) tol
      (by linarith) (by linarith) (by linarith) (by linarith) (by linarith)
      (le_of_not_lt htol) hx hu

theorem t_core_fixed (lx ly px py qx qy tol : ℚ)
    (hl : lx ≤ 0) (hp : px ≤ 0) (hq : qx ≤ 0) (hlp : lx ≤ px) (htol : 0 ≤ tol)
    (hO : tol < (px + qx) * qy - qx * (py + qy))
    (hT : tol < lx * py - px * ly) :
    tol < (lx + qx) * qy - qx * (ly + qy) := by
  rcases eq_or_lt_of_le hp with heq | hlt
  · have hO0 : 0 < (px + qx) * qy - qx * (py + qy) := lt_of_le_of_lt htol hO
    have hT0 : 0 < lx * py - px * ly := lt_of_le_of_lt htol hT
    exfalso
    rw [heq] at hO0 hT0
    have hid : (0 : ℚ) = ((0 + qx) * qy - qx * (py + qy)) * lx + (lx * py - 0 * ly) * qx := by
      have h0 : ((lx + qx) * qy - qx * (ly + qy)) * px =
          ((px + qx) * qy - qx * (py + qy)) * lx + (lx * py - px * ly) * qx := by ring
      rw [heq, mul_zero] at h0
      exact h0
    have hprod1 : ((0 + qx) * qy - qx * (py + qy)) * lx ≤ 0 := by
      nlinarith [mul_nonneg (le_of_lt hO0) (neg_nonneg.mpr hl)]
    have hprod2 : (lx * py - 0 * ly) * qx ≤ 0 := by
      nlinarith [mul_nonneg (le_of_lt hT0) (neg_nonneg.mpr hq)]
    have heq1 : ((0 + qx) * qy - qx * (py + qy)) * lx = 0 := by linarith
    have heq2 : (lx * py - 0 * ly) * qx = 0 := by linarith
    have hqx0 : qx = 0 := by
      rcases mul_eq_zero.mp heq2 with h | h
      · exact absurd h (by linarith)
      · exact h
    rw [hqx0] at hO0
    simp at hO0
  · have hlx : lx < 0 := lt_of_le_of_lt hlp hlt
    have hid : ((lx + qx) * qy - qx * (ly + qy)) * px =
        ((px + qx) * qy - qx * (py + qy)) * lx + (lx * py - px * ly) * qx := by ring
    have h1 : ((px + qx) * qy - qx * (py + qy)) * lx < tol * lx := by
      nlinarith [mul_pos (sub_pos.mpr hO) (neg_pos.mpr hlx)]
    have h2 : (lx * py - px * ly) * qx ≤ tol * qx := by
      nlinarith [mul_nonneg (le_of_lt (sub_pos.mpr hT)) (neg_nonneg.mpr hq)]
    have h3 : ((lx + qx) * qy - qx * (ly + qy)) * px < tol * px := by
      have h4 : tol * (lx + qx) ≤ tol * px := by
        nlinarith [mul_nonneg htol (show (0 : ℚ) ≤ px - (lx + qx) by linarith)]
      nlinarith [hid, h1, h2, h4]
    by_contra hcon
    push_neg at hcon
    have : tol * px ≤ ((lx + qx) * qy - qx * (ly + qy)) * px :=
      mul_le_mul_of_nonpos_right hcon hp
    linarith

theorem t_core_auto (lx ly px py qx qy : ℚ)
    (hl : lx ≤ 0) (hp : px ≤ 0) (hq : qx ≤ 0) (hlp : lx ≤ px)
    (hO : max |(px + qx) * qy| |qx * (py + qy)| / 10 < (px + qx) * qy - qx * (py + qy))
    (hT : max |lx * py| |px * ly| / 10 < lx * py - px * ly) :
    max |(lx + qx) * qy| |qx * (ly + qy)| / 10 < (lx + qx) * qy - qx * (ly + qy) := by
  have hmaxO : (0 : ℚ) ≤ max |(px + qx) * qy| |qx * (py + qy)| / 10 := by positivity
  have hmaxT : (0 : ℚ) ≤ max |lx * py| |px * ly| / 10 := by positivity
  have hO0 : 0 < (px + qx) * qy - qx * (py + qy) := lt_of_le_of_lt hmaxO hO
  have hT0 : 0 < lx * py - px * ly := lt_of_le_of_lt hmaxT hT
  rcases eq_or_lt_of_le hp with heq | hlt
  · exfalso
    rw [heq] at hO0 hT0
    have hid : (0 : ℚ) = ((0 + qx) * qy - qx * (py + qy)) * lx + (lx * py - 0 * ly) * qx := by
      have h0 : ((lx + qx) * qy - qx * (ly + qy)) * px =
          ((px + qx) * qy - qx * (py + qy)) * lx + (lx * py - px * ly) * qx := by ring
      rw [heq, mul_zero] at h0
      exact h0
    have hprod1 : ((0 + qx) * qy - qx * (py + qy)) * lx ≤ 0 := by
      nlinarith [mul_nonneg (le_of_lt hO0) (neg_nonneg.mpr hl)]
    have hprod2 : (lx * py - 0 * ly) * qx ≤ 0 := by
      nlinarith [mul_nonneg (le_of_lt hT0) (neg_nonneg.mpr hq)]
    have heq1 : ((0 + qx) * qy - qx * (py + qy)) * lx = 0 := by linarith
    have heq2 : (lx * py - 0 * ly) * qx = 0 := by linarith
    have hqx0 : qx = 0 := by
      rcases mul_eq_zero.mp heq2 with h | h
      · exact absurd h (by linarith)
      · exact h
    rw [hqx0] at hO0
    simp at hO0
  · have hlx : lx < 0 := lt_of_le_of_lt hlp hlt
    have hid : ((lx + qx) * qy - qx * (ly + qy)) * px =
        ((px + qx) * qy - qx * (py + qy)) * lx + (lx * py - px * ly) * qx := by ring
    have hA : |(px + qx) * qy| = (-px - qx) * |qy| := by
      rw [abs_mul, abs_of_nonpos (by linarith : px + qx ≤ 0)]
      ring
    have hD : |px * ly| = (-px) * |ly| := by
      rw [abs_mul, abs_of_nonpos hp]
    have hE : |(lx + qx) * qy| = (-lx - qx) * |qy| := by
      rw [abs_mul, abs_of_nonpos (by linarith : lx + qx ≤ 0)]
      ring
    have hF : |qx * (ly + qy)| = (-qx) * |ly + qy| := by
      rw [abs_mul, abs_of_nonpos hq]
    have h1 : ((px + qx) * qy - qx * (py + qy)) * lx <
        (max |(px + qx) * qy| |qx * (py + qy)| / 10) * lx := by
      nlinarith [mul_pos (sub_pos.mpr hO) (neg_pos.mpr hlx)]
    have h2 : (lx * py - px * ly) * qx ≤ (max |lx * py| |px * ly| / 10) * qx := by
      nlinarith [mul_nonneg (le_of_lt (sub_pos.mpr hT)) (neg_nonneg.mpr hq)]
    have h3 : (max |(px + qx) * qy| |qx * (py + qy)| / 10) * lx ≤
        (|(px + qx) * qy| / 10) * lx := by
      have hle := le_max_left |(px + qx) * qy| |qx * (py + qy)|
      nlinarith [mul_nonneg (sub_nonneg.mpr hle) (neg_nonneg.mpr hl)]
    have h4 : (max |lx * py| |px * ly| / 10) * qx ≤ (|px * ly| / 10) * qx := by
      have hle := le_max_right |lx * py| |px * ly|
      nlinarith [mul_nonneg (sub_nonneg.mpr hle) (neg_nonneg.mpr hq)]
    have habs_add : |ly + qy| ≤ |ly| + |qy| := abs_add ly qy
    have key : |(px + qx) * qy| * lx + |px * ly| * qx ≤
        (max |(lx + qx) * qy| |qx * (ly + qy)|) * px := by
      rcases max_cases (|(lx + qx) * qy|) (|qx * (ly + qy)|) with ⟨hM, _⟩ | ⟨hM, _⟩ <;> rw [hM]
      · rw [hA, hE]
        have hDqx : |px * ly| * qx ≤ 0 := by
          nlinarith [abs_nonneg (px * ly), hq]
        have hEA : ((-px - qx) * |qy|) * lx ≤ ((-lx - qx) * |qy|) * px := by
          nlinarith [mul_nonneg (abs_nonneg qy) (mul_nonneg (neg_nonneg.mpr hq)
            (sub_nonneg.mpr hlp))]
        nlinarith [hDqx, hEA]
      · rw [hA, hD, hF]
        have hstep : ((-qx) * (|ly| + |qy|)) * px ≤ ((-qx) * |ly + qy|) * px := by
          nlinarith [mul_nonneg (mul_nonneg (neg_nonneg.mpr hq)
            (sub_nonneg.mpr habs_add)) (neg_nonneg.mpr hp)]
        have hsplit : ((-px - qx) * |qy|) * lx + ((-px) * |ly|) * qx ≤
            ((-qx) * (|ly| + |qy|)) * px := by
          nlinarith [mul_nonneg (mul_nonneg (neg_nonneg.mpr hq) (abs_nonneg qy))
              (sub_nonneg.mpr hlp),
            mul_nonneg (mul_nonneg (neg_nonneg.mpr hp) (neg_nonneg.mpr hl)) (abs_nonneg qy)]
        nlinarith [hstep, hsplit]
    have h5 : ((lx + qx) * qy - qx * (ly + qy)) * px <
        (max |(lx + qx) * qy| |qx * (ly + qy)| / 10) * px := by
      nlinarith [hid, h1, h2, h3, h4, key]
    by_contra hcon
    push_neg at hcon
    have : (max |(lx + qx) * qy| |qx * (ly + qy)| / 10) * px ≤
        ((lx + qx) * qy - qx * (ly + qy)) * px :=
      mul_le_mul_of_nonpos_right hcon hp
    linarith

theorem t_step (L xm xi xn : GeoPoint) (tol : ℚ)
    (hO : effTol xm xn xi tol < dval xm xn xi)
    (hT : effTol L xi xm tol < dval L xi xm)
    (h1 : L.longitude ≤ xm.longitude) (h2 : xm.longitude ≤ xi.longitude)
    (h3 : xi.longitude ≤ xn.longitude) :
    effTol L xn xi tol < dval L xn xi := by
  have e1 : xm.longitude - xn.longitude =
      (xm.longitude - xi.longitude) + (xi.longitude - xn.longitude) := by ring
  have e2 : xm.latitude - xn.latitude =
      (xm.latitude - xi.latitude) + (xi.latitude - xn.latitude) := by ring
  have e3 : L.longitude - xn.longitude =
      (L.longitude - xi.longitude) + (xi.longitude - xn.longitude) := by ring
  have e4 : L.latitude - xn.latitude =
      (L.latitude - xi.latitude) + (xi.latitude - xn.latitude) := by ring
  by_cases htol : tol < 0
  · simp only [dval, effTol, GeoPoint.sub_longitude, GeoPoint.sub_latitude, if_pos htol]
      at hO hT ⊢
    rw [e1, e2] at hO
    rw [e3, e4]
    exact t_core_auto (L.longitude - xi.longitude) (L.latitude - xi.latitude)
      (xm.longitude - xi.longitude) (xm.latitude - xi.latitude)
      (xi.longitude - xn.longitude) (xi.latitude - xn.latitude)
      (by linarith) (by linarith) (by linarith) (by linarith) hO hT
  · simp only [dval, effTol, GeoPoint.sub_longitude, GeoPoint.sub_latitude, if_neg htol]
      at hO hT ⊢
    rw [e1, e2] at hO
    rw [e3, e4]
    exact t_core_fixed (L.longitude - xi.longitude) (L.latitude - xi.latitude)
      (xm.longitude - xi.longitude) (xm.latitude - xi.latitude)
      (xi.longitude - xn.longitude) (xi.latitude - xn.latitude) tol
      (by linarith) (by linarith) (by linarith) (by linarith)
      (le_of_not_lt htol) hO hT

theorem s_core_fixed (Lx Ly Zx Zy Xx Xy Ux Uy tol : ℚ)
    (hxx : Lx ≤ Xx) (hxz : Xx ≤ Zx) (hux : Lx ≤ Ux) (htol : 0 ≤ tol)
    (hb : tol < (Lx - Zx) * (Xy - Zy) - (Xx - Zx) * (Ly - Zy))
    (hS : (Ux - Lx) * (Zy - Ly) - (Zx - Lx) * (Uy - Ly) ≤ tol) :
    (Ux - Lx) * (Xy - Ly) - (Xx - Lx) * (Uy - Ly) ≤ tol := by
  have hid : ((Ux - Lx) * (Xy - Ly) - (Xx - Lx) * (Uy - Ly)) * (Zx - Lx) =
      (-((Lx - Zx) * (Xy - Zy) - (Xx - Zx) * (Ly - Zy))) * (Ux - Lx) +
        ((Ux - Lx) * (Zy - Ly) - (Zx - Lx) * (Uy - Ly)) * (Xx - Lx) := by ring
  rcases eq_or_lt_of_le (by linarith : Lx ≤ Zx) with heq | hlt
  · exfalso
    have hXZ : Xx = Zx := by linarith [heq]
    have : (Lx - Zx) * (Xy - Zy) - (Xx - Zx) * (Ly - Zy) = 0 := by
      rw [← heq, hXZ, ← heq]
      ring
    linarith
  · have h1 : (-((Lx - Zx) * (Xy - Zy) - (Xx - Zx) * (Ly - Zy))) * (Ux - Lx) ≤
        (-tol) * (Ux - Lx) := by
      nlinarith [mul_nonneg (le_of_lt (sub_pos.mpr hb)) (sub_nonneg.mpr hux)]
    have h2 : ((Ux - Lx) * (Zy - Ly) - (Zx - Lx) * (Uy - Ly)) * (Xx - Lx) ≤
        tol * (Xx - Lx) := by
      nlinarith [mul_nonneg (sub_nonneg.mpr hS) (sub_nonneg.mpr hxx)]
    have h3 : ((Ux - Lx) * (Xy - Ly) - (Xx - Lx) * (Uy - Ly)) * (Zx - Lx) ≤
        tol * (Zx - Lx) := by
      have h4 : (-tol) * (Ux - Lx) + tol * (Xx - Lx) ≤ tol * (Zx - Lx) := by
        nlinarith [mul_nonneg htol (sub_nonneg.mpr hux),
          mul_nonneg htol (show (0 : ℚ) ≤ Zx - Xx by linarith)]
      linarith [hid, h1, h2]
    by_contra hcon
    push_neg at hcon
    have := mul_lt_mul_of_pos_right hcon (by linarith : (0 : ℚ) < Zx - Lx)
    linarith

theorem s_core_auto (Lx Ly Zx Zy Xx Xy Ux Uy : ℚ)
    (hxx : Lx ≤ Xx) (hxz : Xx ≤ Zx) (hux : Lx ≤ Ux)
    (hb : max |(Lx - Zx) * (Xy - Zy)| |(Xx - Zx) * (Ly - Zy)| / 10 <
      (Lx - Zx) * (Xy - Zy) - (Xx - Zx) * (Ly - Zy))
    (hS : (Ux - Lx) * (Zy - Ly) - (Zx - Lx) * (Uy - Ly) ≤
      max |(Ux - Lx) * (Zy - Ly)| |(Zx - Lx) * (Uy - Ly)| / 10) :
    (Ux - Lx) * (Xy - Ly) - (Xx - Lx) * (Uy - Ly) ≤
      max |(Ux - Lx) * (Xy - Ly)| |(Xx - Lx) * (Uy - Ly)| / 10 := by
  have hmaxb : (0 : ℚ) ≤ max |(Lx - Zx) * (Xy - Zy)| |(Xx - Zx) * (Ly - Zy)| / 10 := by
    positivity
  have hmaxg : (0 : ℚ) ≤ max |(Ux - Lx) * (Xy - Ly)| |(Xx - Lx) * (Uy - Ly)| / 10 := by
    positivity
  have hb0 : 0 < (Lx - Zx) * (Xy - Zy) - (Xx - Zx) * (Ly - Zy) :=
    lt_of_le_of_lt hmaxb hb
  have hid : ((Ux - Lx) * (Xy - Ly) - (Xx - Lx) * (Uy - Ly)) * (Zx - Lx) =
      (-((Lx - Zx) * (Xy - Zy) - (Xx - Zx) * (Ly - Zy))) * (Ux - Lx) +
        ((Ux - Lx) * (Zy - Ly) - (Zx - Lx) * (Uy - Ly)) * (Xx - Lx) := by ring
  rcases eq_or_lt_of_le (by linarith : Lx ≤ Zx) with heq | hlt
  · exfalso
    have hXZ : Xx = Zx := by linarith [heq]
    have : (Lx - Zx) * (Xy - Zy) - (Xx - Zx) * (Ly - Zy) = 0 := by
      rw [← heq, hXZ, ← heq]
      ring
    linarith
  · have habsb1 : |(Lx - Zx) * (Xy - Zy)| = (Zx - Lx) * |Xy - Zy| := by
      rw [abs_mul, abs_of_nonpos (by linarith : Lx - Zx ≤ 0)]
      ring
    have habsS2 : |(Zx - Lx) * (Uy - Ly)| = (Zx - Lx) * |Uy - Ly| := by
      rw [abs_mul, abs_of_nonneg (by linarith : (0 : ℚ) ≤ Zx - Lx)]
    have habsS1 : |(Ux - Lx) * (Zy - Ly)| = (Ux - Lx) * |Zy - Ly| := by
      rw [abs_mul, abs_of_nonneg (by linarith : (0 : ℚ) ≤ Ux - Lx)]
    have habsg1 : |(Ux - Lx) * (Xy - Ly)| = (Ux - Lx) * |Xy - Ly| := by
      rw [abs_mul, abs_of_nonneg (by linarith : (0 : ℚ) ≤ Ux - Lx)]
    have habsg2 : |(Xx - Lx) * (Uy - Ly)| = (Xx - Lx) * |Uy - Ly| := by
      rw [abs_mul, abs_of_nonneg (by linarith : (0 : ℚ) ≤ Xx - Lx)]
    have h1 : (-((Lx - Zx) * (Xy - Zy) - (Xx - Zx) * (Ly - Zy))) * (Ux - Lx) ≤
        (-(max |(Lx - Zx) * (Xy - Zy)| |(Xx - Zx) * (Ly - Zy)| / 10)) * (Ux - Lx) := by
      nlinarith [mul_nonneg (le_of_lt (sub_pos.mpr hb)) (sub_nonneg.mpr hux)]
    rcases max_cases (|(Ux - Lx) * (Zy - Ly)|) (|(Zx - Lx) * (Uy - Ly)|) with
      ⟨hM, _⟩ | ⟨hM, _⟩
    · -- t_S arm |(Ux - Lx) * (Zy - Ly)| : goal bounded by |(Ux - Lx) * (Xy - Ly)| / 10
      rw [hM] at hS
      have hbarm : |(Lx - Zx) * (Xy - Zy)| ≤
          max |(Lx - Zx) * (Xy - Zy)| |(Xx - Zx) * (Ly - Zy)| := le_max_left _ _
      have h2 : ((Ux - Lx) * (Zy - Ly) - (Zx - Lx) * (Uy - Ly)) * (Xx - Lx) ≤
          (|(Ux - Lx) * (Zy - Ly)| / 10) * (Xx - Lx) := by
        nlinarith [mul_nonneg (sub_nonneg.mpr hS) (sub_nonneg.mpr hxx)]
      have h1' : (-((Lx - Zx) * (Xy - Zy) - (Xx - Zx) * (Ly - Zy))) * (Ux - Lx) ≤
          (-(|(Lx - Zx) * (Xy - Zy)| / 10)) * (Ux - Lx) := by
        have : (-(max |(Lx - Zx) * (Xy - Zy)| |(Xx - Zx) * (Ly - Zy)| / 10)) * (Ux - Lx) ≤
            (-(|(Lx - Zx) * (Xy - Zy)| / 10)) * (Ux - Lx) := by
          nlinarith [mul_nonneg (sub_nonneg.mpr hbarm) (sub_nonneg.mpr hux)]
        linarith [h1]
      -- numerator bound: (Ux-Lx) * [ -(Zx-Lx)|Xy-Zy| + |Zy-Ly|(Xx-Lx) ] / 10
      -- ≤ (Ux-Lx) * (Zx-Lx) * |Xy-Ly| / 10
      have htri : |Zy - Ly| ≤ |Xy - Ly| + |Xy - Zy| := by
        have := abs_sub_abs_le_abs_sub (Zy - Ly) (Xy - Ly)
        have h := abs_add (Xy - Ly) (Zy - Xy)
        have e : Zy - Ly = (Xy - Ly) + (Zy - Xy) := by ring
        have e2 : |Zy - Xy| = |Xy - Zy| := abs_sub_comm Zy Xy
        rw [e, ← e2]
        exact h
      have hkey : (-(|(Lx - Zx) * (Xy - Zy)| / 10)) * (Ux - Lx) +
          (|(Ux - Lx) * (Zy - Ly)| / 10) * (Xx - Lx) ≤
          ((Ux - Lx) * |Xy - Ly| / 10) * (Zx - Lx) := by
        rw [habsb1, habsS1]
        nlinarith [mul_nonneg (sub_nonneg.mpr hux) (abs_nonneg (Xy - Zy)),
          mul_nonneg (mul_nonneg (sub_nonneg.mpr hux) (abs_nonneg (Zy - Ly)))
            (show (0 : ℚ) ≤ Zx - Xx by linarith),
          mul_nonneg (mul_nonneg (sub_nonneg.mpr hux) (sub_nonneg.mpr hxz))
            (abs_nonneg (Xy - Zy)),
          mul_nonneg (mul_nonneg (sub_nonneg.mpr hux) (show (0 : ℚ) ≤ Zx - Lx by linarith))
            (sub_nonneg.mpr htri)]
      have hfin : ((Ux - Lx) * (Xy - Ly) - (Xx - Lx) * (Uy - Ly)) * (Zx - Lx) ≤
          ((Ux - Lx) * |Xy - Ly| / 10) * (Zx - Lx) := by
        linarith [hid, h1', h2, hkey]
      have hdiv : (Ux - Lx) * (Xy - Ly) - (Xx - Lx) * (Uy - Ly) ≤
          (Ux - Lx) * |Xy - Ly| / 10 := by
        by_contra hcon
        push_neg at hcon
        have := mul_lt_mul_of_pos_right hcon
          (by linarith : (0 : ℚ) < Zx - Lx)
        linarith
      have : (Ux - Lx) * |Xy - Ly| / 10 ≤
          max |(Ux - Lx) * (Xy - Ly)| |(Xx - Lx) * (Uy - Ly)| / 10 := by
        rw [← habsg1]
        have := le_max_left |(Ux - Lx) * (Xy - Ly)| |(Xx - Lx) * (Uy - Ly)|
        linarith
      linarith
    · -- t_S arm |(Zx - Lx) * (Uy - Ly)| : goal bounded by |(Xx - Lx) * (Uy - Ly)| / 10
      rw [hM] at hS
      have h2 : ((Ux - Lx) * (Zy - Ly) - (Zx - Lx) * (Uy - Ly)) * (Xx - Lx) ≤
          (|(Zx - Lx) * (Uy - Ly)| / 10) * (Xx - Lx) := by
        nlinarith [mul_nonneg (sub_nonneg.mpr hS) (sub_nonneg.mpr hxx)]
      have h1'' : (-((Lx - Zx) * (Xy - Zy) - (Xx - Zx) * (Ly - Zy))) * (Ux - Lx) ≤ 0 := by
        nlinarith [mul_nonneg (le_of_lt hb0) (sub_nonneg.mpr hux)]
      have hkey : (|(Zx - Lx) * (Uy - Ly)| / 10) * (Xx - Lx) ≤
          ((Xx - Lx) * |Uy - Ly| / 10) * (Zx - Lx) := by
        rw [habsS2]
        nlinarith [mul_nonneg (mul_nonneg (show (0 : ℚ) ≤ Zx - Lx by linarith)
          (abs_nonneg (Uy - Ly))) (sub_nonneg.mpr hxx)]
      have hfin : ((Ux - Lx) * (Xy - Ly) - (Xx - Lx) * (Uy - Ly)) * (Zx - Lx) ≤
          ((Xx - Lx) * |Uy - Ly| / 10) * (Zx - Lx) := by
        linarith [hid, h1'', h2, hkey]
      have hdiv : (Ux - Lx) * (Xy - Ly) - (Xx - Lx) * (Uy - Ly) ≤
          (Xx - Lx) * |Uy - Ly| / 10 := by
        by_contra hcon
        push_neg at hcon
        have := mul_lt_mul_of_pos_right hcon
          (by linarith : (0 : ℚ) < Zx - Lx)
        linarith
      have : (Xx - Lx) * |Uy - Ly| / 10 ≤
          max |(Ux - Lx) * (Xy - Ly)| |(Xx - Lx) * (Uy - Ly)| / 10 := by
        rw [← habsg2]
        have := le_max_right |(Ux - Lx) * (Xy - Ly)| |(Xx - Lx) * (Uy - Ly)|
        linarith
      linarith

theorem s_step (L x z u : GeoPoint) (tol : ℚ)
    (hb : effTol L z x tol < dval L z x)
    (hS : dval u L z ≤ effTol u L z tol)
    (h1 : L.longitude ≤ x.longitude) (h2 : x.longitude ≤ z.longitude)
    (h3 : L.longitude ≤ u.longitude) :
    dval u L x ≤ effTol u L x tol := by
  by_cases htol : tol < 0
  · simp only [dval, effTol, GeoPoint.sub_longitude, GeoPoint.sub_latitude, if_pos htol]
      at hb hS ⊢
    exact s_core_auto L.longitude L.latitude z.longitude z.latitude
      x.longitude x.latitude u.longitude u.latitude h1 h2 h3 hb hS
  · simp only [dval, effTol, GeoPoint.sub_longitude, GeoPoint.sub_latitude, if_neg htol]
      at hb hS ⊢
    exact s_core_fixed L.longitude L.latitude z.longitude z.latitude
      x.longitude x.latitude u.longitude u.latitude tol h1 h2 h3
      (le_of_not_lt htol) hb hS

/-- Generic predicate asserting a condition on every run of three
consecutive elements of a list. -/
def triWin (C : SearchPoint → SearchPoint → SearchPoint → Prop) :
    List SearchPoint → Prop
  | a :: b :: c :: t => C a b c ∧ triWin C (b :: c :: t)
  | _ => True

theorem triWin_nil (C : SearchPoint → SearchPoint → SearchPoint → Prop) :
    triWin C [] := trivial

theorem triWin_one (C : SearchPoint → SearchPoint → SearchPoint → Prop)
    (a : SearchPoint) : triWin C [a] := trivial

theorem triWin_two (C : SearchPoint → SearchPoint → SearchPoint → Prop)
    (a b : SearchPoint) : triWin C [a, b] := trivial

theorem triWin_tail (C : SearchPoint → SearchPoint → SearchPoint → Prop)
    (x : SearchPoint) (l : List SearchPoint) (h : triWin C (x :: l)) :
    triWin C l := by
  cases l with
  | nil => trivial
  | cons b t =>
    cases t with
    | nil => trivial
    | cons c t' => exact h.2

theorem triWin_mono (C C' : SearchPoint → SearchPoint → SearchPoint → Prop)
    (h : ∀ a b c, C a b c → C' a b c) :
    ∀ l, triWin C l → triWin C' l
  | a :: b :: c :: t, hw => ⟨h a b c hw.1, triWin_mono C C' h (b :: c :: t) hw.2⟩
  | [], _ => trivial
  | [_], _ => trivial
  | [_, _], _ => trivial

theorem triWin_append_right (C : SearchPoint → SearchPoint → SearchPoint → Prop)
    (a p : SearchPoint) (rest : List SearchPoint)
    (h2 : triWin C (a :: p :: rest)) :
    ∀ l, triWin C (l ++ [a, p]) → triWin C (l ++ a :: p :: rest) := by
  intro l
  induction l with
  | nil => intro _; exact h2
  | cons x l ih =>
    intro h1
    cases l with
    | nil => exact ⟨h1.1, h2⟩
    | cons y l'' =>
      cases l'' with
      | nil => exact ⟨h1.1, ih (triWin_tail _ _ _ h1)⟩
      | cons z l₃ => exact ⟨h1.1, ih (triWin_tail _ _ _ h1)⟩

theorem triWin_reverse_of (C : SearchPoint → SearchPoint → SearchPoint → Prop) :
    ∀ l, triWin (fun a b c => C c b a) l → triWin C l.reverse
  | [], _ => trivial
  | [_], _ => trivial
  | [_, _], _ => triWin_two C _ _
  | x :: b :: c :: t, hw => by
    have ih := triWin_reverse_of C (b :: c :: t) hw.2
    have hrw : (b :: c :: t).reverse = t.reverse ++ [c, b] := by simp
    rw [hrw] at ih
    have hstep := triWin_append_right C c b [x] ⟨hw.1, trivial⟩ t.reverse ih
    have hrw2 : (x :: b :: c :: t).reverse = t.reverse ++ c :: b :: [x] := by simp
    rw [hrw2]
    exact hstep

/-- The invariant maintained by the construction loop: every window of
three consecutive stack entries (most recent first) passed the
orientation test of `GrahamScan::BuildHalfHull` when its top element was
pushed. -/
def stackOK (tolerance : ℚ) (factor : Int) : List SearchPoint → Prop :=
  triWin (fun a b c => factor * Direction c.location a.location b.location tolerance > 0)

/-- The convexity reading of claim C1: every window of three consecutive
elements of a sequence turns non-positively under `Direction`. -/
def consTriplesLE (tolerance : ℚ) : List SearchPoint → Prop :=
  triWin (fun a b c => Direction a.location b.location c.location tolerance ≤ 0)

theorem ghPush_preserves (tol : ℚ) (f : Int) (i : SearchPoint) :
    ∀ s, stackOK tol f s → stackOK tol f (ghPush tol f i s).1
  | b :: m :: rest, hs => by
    unfold ghPush
    split
    · rename_i hc
      exact ⟨hc, hs⟩
    · exact ghPush_preserves tol f i (m :: rest) (triWin_tail _ _ _ hs)
  | [], _ => triWin_one _ _
  | [b], _ => triWin_two _ _ _

theorem scanLoop_preserves (tol : ℚ) (f : Int) :
    ∀ (input : List SearchPoint) (stack : List SearchPoint) (pruned : Bool),
      stackOK tol f stack → stackOK tol f (scanLoop tol f stack pruned input).1
  | [], _, _, hs => hs
  | i :: rest, stack, pruned, hs =>
    scanLoop_preserves tol f rest _ _ (ghPush_preserves tol f i stack hs)

theorem BuildHalfHull_stackOK (L R : SearchPoint) (tol : ℚ)
    (input : List SearchPoint) (f : Int) :
    stackOK tol f ((BuildHalfHull L R tol input f).1.reverse) := by
  unfold BuildHalfHull
  rw [List.reverse_reverse]
  exact scanLoop_preserves tol f (input ++ [R]) [L] false (triWin_one _ _)

theorem lower_window_le (tol : ℚ) (a b c : SearchPoint)
    (h : (1 : Int) * Direction a.location c.location b.location tol > 0) :
    Direction a.location b.location c.location tol ≤ 0 := by
  rw [one_mul] at h
  replace h := (Direction_pos_iff a.location c.location b.location tol).mp h
  rw [Direction_le_zero_iff]
  have hsw := dval_swap23 a.location b.location c.location
  have h0 := effTol_nonneg a.location c.location b.location tol
  have h1 := effTol_nonneg a.location b.location c.location tol
  linarith

theorem upper_window_le (tol : ℚ) (a b c : SearchPoint)
    (h : (-1 : Int) * Direction c.location a.location b.location tol > 0) :
    Direction a.location b.location c.location tol ≤ 0 := by
  have h' : Direction c.location a.location b.location tol < 0 := by omega
  rw [Direction_lt_zero_iff] at h'
  rw [Direction_le_zero_iff]
  have hcyc := dval_cyc c.location a.location b.location
  have h0 := effTol_nonneg c.location a.location b.location tol
  have h1 := effTol_nonneg a.location b.location c.location tol
  linarith

theorem BuildHalfHull_hull_windows (L R : SearchPoint) (tol : ℚ)
    (input : List SearchPoint) :
    triWin (fun a b c => (1 : Int) *
        Direction a.location c.location b.location tol > 0)
      (BuildHalfHull L R tol input 1).1 := by
  have hs := BuildHalfHull_stackOK L R tol input 1
  have hrev := triWin_reverse_of
    (fun a b c => (1 : Int) * Direction a.location c.location b.location tol > 0)
    ((BuildHalfHull L R tol input 1).1.reverse) hs
  rwa [List.reverse_reverse] at hrev

theorem ct_lower (L R : SearchPoint) (tol : ℚ) (input : List SearchPoint) :
    consTriplesLE tol (BuildHalfHull L R tol input 1).1 :=
  triWin_mono _ _ (lower_window_le tol) _ (BuildHalfHull_hull_windows L R tol input)

theorem ct_upper (L R : SearchPoint) (tol : ℚ) (input : List SearchPoint) :
    consTriplesLE tol ((BuildHalfHull L R tol input (-1)).1.reverse) :=
  triWin_mono _ _ (upper_window_le tol) _ (BuildHalfHull_stackOK L R tol input (-1))

theorem BuildHalfHull_winO (L R : SearchPoint) (tol : ℚ) (input : List SearchPoint) :
    triWin (fun a b c => effTol a.location c.location b.location tol <
        dval a.location c.location b.location)
      (BuildHalfHull L R tol input 1).1 := by
  refine triWin_mono _ _ ?_ _ (BuildHalfHull_hull_windows L R tol input)
  intro a b c h
  rw [one_mul] at h
  exact (Direction_pos_iff a.location c.location b.location tol).mp h

theorem locLt_lon_le {p q : GeoPoint} (h : locLt p q) : p.longitude ≤ q.longitude := by
  rcases h with h | ⟨h, _⟩
  · exact le_of_lt h
  · exact le_of_eq h

theorem not_locLt_lon_le {p q : GeoPoint} (h : ¬ locLt q p) :
    p.longitude ≤ q.longitude := by
  unfold locLt at h
  push_neg at h
  exact h.1

theorem left_lon_le_right (raw_vector : List SearchPoint) (tolerance : ℚ)
    (hlen : 2 ≤ raw_vector.length) :
    (PartitionPoints raw_vector tolerance).left.location.longitude ≤
      (PartitionPoints raw_vector tolerance).right.location.longitude := by
  have hS2 : 2 ≤ (sortPoints raw_vector).length := by
    rw [sortPoints_length]; exact hlen
  have hsplit := sorted_split (sortPoints raw_vector) hS2
  have hsorted := sortPoints_sorted raw_vector
  have hs' : List.Sorted spLe ((sortPoints raw_vector).headI ::
      ((((sortPoints raw_vector).drop 1).dropLast) ++
        [(sortPoints raw_vector).getLastD default])) := by
    rw [← hsplit]; exact hsorted
  have hle := (List.sorted_cons.mp hs').1 ((sortPoints raw_vector).getLastD default)
    (by simp)
  exact not_locLt_lon_le hle

theorem kept_lon_bounds (raw_vector : List SearchPoint) (tolerance : ℚ)
    (hlen : 2 ≤ raw_vector.length) :
    ∀ e ∈ keptOf raw_vector tolerance,
      (PartitionPoints raw_vector tolerance).left.location.longitude ≤
          e.location.longitude ∧
        e.location.longitude ≤
          (PartitionPoints raw_vector tolerance).right.location.longitude := by
  intro e he
  constructor
  · exact locLt_lon_le (List.rel_of_pairwise_cons
      (keptOf_pairwise raw_vector tolerance hlen)
      (List.mem_map_of_mem SearchPoint.location he))
  · exact not_locLt_lon_le (keptOf_le_right raw_vector tolerance hlen e he)

theorem hull_lon_pairwise (raw_vector : List SearchPoint) (tolerance : ℚ)
    (hlen : 2 ≤ raw_vector.length) (lm : List SearchPoint)
    (hsub : List.Sublist lm (keptOf raw_vector tolerance)) :
    List.Pairwise (fun p q : SearchPoint =>
        p.location.longitude ≤ q.location.longitude)
      ((PartitionPoints raw_vector tolerance).left ::
        (lm ++ [(PartitionPoints raw_vector tolerance).right])) := by
  rw [List.pairwise_cons]
  constructor
  · intro e he
    rcases List.mem_append.mp he with he | he
    · exact (kept_lon_bounds raw_vector tolerance hlen e (hsub.mem he)).1
    · simp only [List.mem_singleton] at he
      rw [he]
      exact left_lon_le_right raw_vector tolerance hlen
  · rw [List.pairwise_append]
    refine ⟨?_, by simp, ?_⟩
    · have hpw : List.Pairwise locLt
          ((keptOf raw_vector tolerance).map SearchPoint.location) :=
        (keptOf_pairwise raw_vector tolerance hlen).of_cons
      have hpwlm : List.Pairwise locLt (lm.map SearchPoint.location) :=
        hpw.sublist (hsub.map _)
      have hl := (List.pairwise_map).mp hpwlm
      exact hl.imp (fun h => locLt_lon_le h)
    · intro e he r hr
      simp only [List.mem_singleton] at hr
      rw [hr]
      exact (kept_lon_bounds raw_vector tolerance hlen e (hsub.mem he)).2

theorem tchain_aux (tol : ℚ) (Lp : GeoPoint) :
    ∀ (t : List SearchPoint) (x y : SearchPoint),
      triWin (fun a b c => effTol a.location c.location b.location tol <
        dval a.location c.location b.location) (x :: y :: t) →
      effTol Lp y.location x.location tol < dval Lp y.location x.location →
      List.Chain' (fun p q : SearchPoint =>
        p.location.longitude ≤ q.location.longitude) (x :: y :: t) →
      Lp.longitude ≤ x.location.longitude →
      List.Chain' (fun p q : SearchPoint =>
        effTol Lp q.location p.location tol < dval Lp q.location p.location)
        (x :: y :: t)
  | [], x, y, _, hT, _, _ => List.chain'_cons.mpr ⟨hT, List.chain'_singleton y⟩
  | z :: t', x, y, hw, hT, hlon, hLx => by
    have hxy : x.location.longitude ≤ y.location.longitude :=
      (List.chain'_cons.mp hlon).1
    have hyz : y.location.longitude ≤ z.location.longitude :=
      (List.chain'_cons.mp (List.chain'_cons.mp hlon).2).1
    have hTyz := t_step Lp x.location y.location z.location tol hw.1 hT hLx hxy hyz
    exact List.chain'_cons.mpr ⟨hT,
      tchain_aux tol Lp t' y z hw.2 hTyz (List.chain'_cons.mp hlon).2
        (le_trans hLx hxy)⟩

theorem tchain (tol : ℚ) (L' : SearchPoint) (rest : List SearchPoint)
    (hw : triWin (fun a b c => effTol a.location c.location b.location tol <
      dval a.location c.location b.location) (L' :: rest))
    (hlon : List.Chain' (fun p q : SearchPoint =>
      p.location.longitude ≤ q.location.longitude) (L' :: rest)) :
    List.Chain' (fun p q : SearchPoint =>
      effTol L'.location q.location p.location tol <
        dval L'.location q.location p.location) rest := by
  cases rest with
  | nil => exact List.chain'_nil
  | cons y rest' =>
    cases rest' with
    | nil => exact List.chain'_singleton y
    | cons z t =>
      have hL'y : L'.location.longitude ≤ y.location.longitude :=
        (List.chain'_cons.mp hlon).1
      exact tchain_aux tol L'.location t y z hw.2 hw.1
        (List.chain'_cons.mp hlon).2 hL'y

theorem schain_aux (tol : ℚ) (Lp up : GeoPoint) :
    ∀ (c : List SearchPoint) (x wl : SearchPoint),
      (x :: c).getLast? = some wl →
      List.Chain' (fun p q : SearchPoint =>
        effTol Lp q.location p.location tol < dval Lp q.location p.location)
        (x :: c) →
      List.Chain' (fun p q : SearchPoint =>
        p.location.longitude ≤ q.location.longitude) (x :: c) →
      Lp.longitude ≤ x.location.longitude →
      Lp.longitude ≤ up.longitude →
      dval up Lp wl.location ≤ effTol up Lp wl.location tol →
      dval up Lp x.location ≤ effTol up Lp x.location tol
  | [], x, wl, hlast, _, _, _, _, hS => by
    simp only [List.getLast?_singleton, Option.some_inj] at hlast
    rw [hlast]
    exact hS
  | z :: c', x, wl, hlast, hT, hlon, hLx, hLu, hS => by
    rw [List.getLast?_cons_cons] at hlast
    have hxz : x.location.longitude ≤ z.location.longitude :=
      (List.chain'_cons.mp hlon).1
    have hTxz := (List.chain'_cons.mp hT).1
    have ih := schain_aux tol Lp up c' z wl hlast (List.chain'_cons.mp hT).2
      (List.chain'_cons.mp hlon).2 (le_trans hLx hxz) hLu hS
    exact s_step Lp x.location z.location up tol hTxz ih hLx hxz hLu

theorem junction_right_degenerate (L R x : GeoPoint) (tol : ℚ)
    (hx : ¬ (Direction L R x tol < 0)) :
    Direction x R L tol ≤ 0 := by
  rw [Direction_lt_zero_iff, not_lt] at hx
  rw [Direction_le_zero_iff]
  have h1 := dval_swap13 L R x
  have h2 := effTol_swap13 L R x tol
  rw [h2]
  linarith

theorem s_base_upper (L R u : GeoPoint) (tol : ℚ)
    (hu : Direction L R u tol < 0) :
    dval u L R ≤ effTol u L R tol := by
  rw [Direction_lt_zero_iff] at hu
  have h1 := dval_cyc u L R
  have h2 := effTol_nonneg L R u tol
  have h3 := effTol_nonneg u L R tol
  linarith

theorem ct_assembly (tol : ℚ) (L R : SearchPoint) (lm ur : List SearchPoint)
    (hctlow : consTriplesLE tol (L :: (lm ++ [R])))
    (hctup : consTriplesLE tol (R :: (ur ++ [L])))
    (hTc : List.Chain' (fun p q : SearchPoint =>
      effTol L.location q.location p.location tol <
        dval L.location q.location p.location) (lm ++ [R]))
    (hlon : List.Chain' (fun p q : SearchPoint =>
      p.location.longitude ≤ q.location.longitude) (L :: (lm ++ [R])))
    (hLR : L.location.longitude ≤ R.location.longitude)
    (hlm_dir : ∀ e ∈ lm,
      ¬ (Direction L.location R.location e.location tol < 0))
    (hur_dir : ∀ e ∈ ur, Direction L.location R.location e.location tol < 0)
    (hur_lon : ∀ e ∈ ur, L.location.longitude ≤ e.location.longitude ∧
      e.location.longitude ≤ R.location.longitude)
    (hlm_lon : ∀ e ∈ lm, L.location.longitude ≤ e.location.longitude ∧
      e.location.longitude ≤ R.location.longitude) :
    consTriplesLE tol ((L :: (lm ++ R :: ur)) ++
      (L :: (lm ++ R :: ur)).take 2) := by
  have schx1 : ∀ (x1 : SearchPoint) (lm₁ : List SearchPoint), lm = x1 :: lm₁ →
      ∀ up : GeoPoint, L.location.longitude ≤ up.longitude →
      dval up L.location R.location ≤ effTol up L.location R.location tol →
      Direction up L.location x1.location tol ≤ 0 := by
    intro x1 lm₁ hlm1 up hup hbase
    rw [Direction_le_zero_iff]
    refine schain_aux tol L.location up (lm₁ ++ [R]) x1 R ?_ ?_ ?_ ?_ hup hbase
    · rw [show x1 :: (lm₁ ++ [R]) = (x1 :: lm₁) ++ [R] from rfl]
      exact List.getLast?_concat _
    · rw [hlm1] at hTc
      exact hTc
    · have h2 := hlon.tail
      rw [hlm1] at h2
      exact h2
    · exact (hlm_lon x1 (by rw [hlm1]; simp)).1
  unfold consTriplesLE at hctlow hctup ⊢
  cases lm with
  | nil =>
    rcases List.eq_nil_or_concat ur with hur | ⟨ur₀, u1, hur₀⟩
    · subst hur
      refine ⟨?_, ?_, trivial⟩
      · exact le_of_eq (Direction_degenerate_left _ _ _)
      · exact le_of_eq (Direction_degenerate_left _ _ _)
    · rw [List.concat_eq_append] at hur₀
      subst hur₀
      have hu1_mem : u1 ∈ ur₀ ++ [u1] := by simp
      have hinner : triWin
          (fun a b c => Direction a.location b.location c.location tol ≤ 0)
          ((R :: ur₀) ++ u1 :: L :: [R]) := by
        refine triWin_append_right _ u1 L [R] ?_ (R :: ur₀) ?_
        · refine ⟨?_, trivial⟩
          show Direction u1.location L.location R.location tol ≤ 0
          rw [Direction_le_zero_iff]
          exact s_base_upper L.location R.location u1.location tol
            (hur_dir u1 hu1_mem)
        · have hsh : R :: ((ur₀ ++ [u1]) ++ [L]) = (R :: ur₀) ++ [u1, L] := by simp
          rw [hsh] at hctup
          exact hctup
      cases ur₀ with
      | nil =>
        refine ⟨?_, ?_⟩
        · exact le_of_lt (hur_dir u1 hu1_mem)
        · exact hinner
      | cons uk ur₁ =>
        have huk_mem : uk ∈ (uk :: ur₁) ++ [u1] := by simp
        refine ⟨?_, ?_⟩
        · exact le_of_lt (hur_dir uk huk_mem)
        · have hsh2 : (R :: uk :: ur₁) ++ u1 :: L :: [R] =
              R :: uk :: ((ur₁ ++ [u1]) ++ [L, R]) := by simp
          rw [hsh2] at hinner
          exact hinner
  | cons x1 lm₁ =>
    obtain ⟨lm₀, xm, hlm₀⟩ : ∃ lm₀ xm, x1 :: lm₁ = lm₀ ++ [xm] := by
      rcases List.eq_nil_or_concat (x1 :: lm₁) with hh | ⟨l', a, hh⟩
      · exact absurd hh (by simp)
      · exact ⟨l', a, by rw [hh, List.concat_eq_append]⟩
    have hxm_mem : xm ∈ x1 :: lm₁ := by rw [hlm₀]; simp
    have hctlow' : triWin
        (fun a b c => Direction a.location b.location c.location tol ≤ 0)
        ((L :: lm₀) ++ [xm, R]) := by
      rw [hlm₀] at hctlow
      have hsh : L :: ((lm₀ ++ [xm]) ++ [R]) = (L :: lm₀) ++ [xm, R] := by simp
      rw [hsh] at hctlow
      exact hctlow
    rcases List.eq_nil_or_concat ur with hur | ⟨ur₀, u1, hur₀⟩
    · subst hur
      have hG : (L :: ((x1 :: lm₁) ++ R :: ([] : List SearchPoint))) ++
          (L :: ((x1 :: lm₁) ++ R :: ([] : List SearchPoint))).take 2 =
          (L :: lm₀) ++ xm :: R :: [L, x1] := by
        rw [show (L :: ((x1 :: lm₁) ++ R :: ([] : List SearchPoint))).take 2 =
          [L, x1] from rfl]
        rw [show (x1 :: lm₁) ++ R :: ([] : List SearchPoint) =
          (x1 :: lm₁) ++ [R] from rfl]
        rw [hlm₀]
        simp
      rw [hG]
      refine triWin_append_right _ xm R [L, x1] ?_ (L :: lm₀) hctlow'
      refine ⟨?_, ?_, trivial⟩
      · exact junction_right_degenerate L.location R.location xm.location tol
          (hlm_dir xm hxm_mem)
      · refine schx1 x1 lm₁ rfl R.location hLR ?_
        rw [dval_self_left]
        exact effTol_nonneg _ _ _ _
    · rw [List.concat_eq_append] at hur₀
      subst hur₀
      have hu1_mem : u1 ∈ ur₀ ++ [u1] := by simp
      have hinner : triWin
          (fun a b c => Direction a.location b.location c.location tol ≤ 0)
          ((R :: ur₀) ++ u1 :: L :: [x1]) := by
        refine triWin_append_right _ u1 L [x1] ?_ (R :: ur₀) ?_
        · refine ⟨?_, trivial⟩
          exact schx1 x1 lm₁ rfl u1.location (hur_lon u1 hu1_mem).1
            (s_base_upper L.location R.location u1.location tol
              (hur_dir u1 hu1_mem))
        · have hsh : R :: ((ur₀ ++ [u1]) ++ [L]) = (R :: ur₀) ++ [u1, L] := by simp
          rw [hsh] at hctup
          exact hctup
      have hG : (L :: ((x1 :: lm₁) ++ R :: (ur₀ ++ [u1]))) ++
          (L :: ((x1 :: lm₁) ++ R :: (ur₀ ++ [u1]))).take 2 =
          (L :: lm₀) ++ xm :: R :: ((ur₀ ++ [u1]) ++ [L, x1]) := by
        rw [show (L :: ((x1 :: lm₁) ++ R :: (ur₀ ++ [u1]))).take 2 =
          [L, x1] from rfl]
        rw [hlm₀]
        simp
      rw [hG]
      refine triWin_append_right _ xm R ((ur₀ ++ [u1]) ++ [L, x1]) ?_
        (L :: lm₀) hctlow'
      cases ur₀ with
      | nil =>
        refine ⟨?_, ?_⟩
        · exact junction_right L.location R.location xm.location u1.location tol
            (hlm_dir xm hxm_mem) (hur_dir u1 hu1_mem)
            (hlm_lon xm hxm_mem).1 (hlm_lon xm hxm_mem).2
            (hur_lon u1 hu1_mem).1 (hur_lon u1 hu1_mem).2 hLR
        · exact hinner
      | cons uk ur₁ =>
        have huk_mem : uk ∈ (uk :: ur₁) ++ [u1] := by simp
        refine ⟨?_, ?_⟩
        · exact junction_right L.location R.location xm.location uk.location tol
            (hlm_dir xm hxm_mem) (hur_dir uk huk_mem)
            (hlm_lon xm hxm_mem).1 (hlm_lon xm hxm_mem).2
            (hur_lon uk huk_mem).1 (hur_lon uk huk_mem).2 hLR
        · have hsh2 : (R :: uk :: ur₁) ++ u1 :: L :: [x1] =
              R :: uk :: ((ur₁ ++ [u1]) ++ [L, x1]) := by simp
          rw [hsh2] at hinner
          exact hinner

/-- **C1**: whenever `PruneInterior` returns `true`, any three consecutive
elements of the resulting sequence, taken cyclically with wrap-around, have
non-positive turn direction as computed by `Direction` with the same
tolerance — the one fixed global winding of the construction — so no
surviving point lies strictly inside the hull of the result. -/
theorem c1_convexity (raw_vector : List SearchPoint) (tolerance : ℚ)
    (w : List SearchPoint)
    (h : PruneInterior raw_vector tolerance = (true, w)) :
    consTriplesLE tolerance (w ++ w.take 2) := by
  have h1 : (PruneInterior raw_vector tolerance).1 = true := by rw [h]
  have hw2 : (PruneInterior raw_vector tolerance).2 = w := by rw [h]
  obtain ⟨lm, um, hlm, hum, hres, hlm_sub, hum_sub⟩ :=
    prune_structure raw_vector tolerance h1
  obtain ⟨_, hlen3, _⟩ := PruneInterior_true_eq raw_vector tolerance h1
  have hlen : 2 ≤ raw_vector.length := by omega
  rw [hw2] at hres
  rw [hres]
  have hA : consTriplesLE tolerance
      ((PartitionPoints raw_vector tolerance).left ::
        (lm ++ [(PartitionPoints raw_vector tolerance).right])) := by
    rw [← hlm]
    exact ct_lower _ _ _ _
  have hB : consTriplesLE tolerance
      ((PartitionPoints raw_vector tolerance).right ::
        (um.reverse ++ [(PartitionPoints raw_vector tolerance).left])) := by
    have hrev : ((upperBuild raw_vector tolerance).1).reverse =
        (PartitionPoints raw_vector tolerance).right ::
          (um.reverse ++ [(PartitionPoints raw_vector tolerance).left]) := by
      rw [hum]
      simp
    rw [← hrev]
    exact ct_upper _ _ _ _
  have hlonhull : List.Chain' (fun p q : SearchPoint =>
      p.location.longitude ≤ q.location.longitude)
      ((PartitionPoints raw_vector tolerance).left ::
        (lm ++ [(PartitionPoints raw_vector tolerance).right])) :=
    (hull_lon_pairwise raw_vector tolerance hlen lm
      (hlm_sub.trans (lower_sublist_kept raw_vector tolerance))).chain'
  have hC : List.Chain' (fun p q : SearchPoint =>
      effTol (PartitionPoints raw_vector tolerance).left.location
          q.location p.location tolerance <
        dval (PartitionPoints raw_vector tolerance).left.location
          q.location p.location)
      (lm ++ [(PartitionPoints raw_vector tolerance).right]) := by
    apply tchain tolerance (PartitionPoints raw_vector tolerance).left
    · rw [← hlm]
      exact BuildHalfHull_winO _ _ _ _
    · exact hlonhull
  refine ct_assembly tolerance _ _ lm um.reverse hA hB hC hlonhull
    (left_lon_le_right raw_vector tolerance hlen) ?_ ?_ ?_ ?_
  · intro e he
    exact (mem_lower_chain raw_vector tolerance e (hlm_sub.mem he)).1
  · intro e he
    exact (mem_upper_chain raw_vector tolerance e
      (hum_sub.mem (List.mem_reverse.mp he))).1
  · intro e he
    exact kept_lon_bounds raw_vector tolerance hlen e
      ((upper_sublist_kept raw_vector tolerance).mem
        (hum_sub.mem (List.mem_reverse.mp he)))
  · intro e he
    exact kept_lon_bounds raw_vector tolerance hlen e
      ((lower_sublist_kept raw_vector tolerance).mem (hlm_sub.mem he))

theorem c1_convexity_witness :
    PruneInterior [⟨⟨0, 0⟩, 0⟩, ⟨⟨0, 10⟩, 1⟩, ⟨⟨10, 10⟩, 2⟩, ⟨⟨10, 0⟩, 3⟩,
        ⟨⟨5, 5⟩, 4⟩] 0 =
      (true, [⟨⟨0, 0⟩, 0⟩, ⟨⟨10, 0⟩, 3⟩, ⟨⟨10, 10⟩, 2⟩, ⟨⟨0, 10⟩, 1⟩]) ∧
    consTriplesLE 0
      ([⟨⟨0, 0⟩, 0⟩, ⟨⟨10, 0⟩, 3⟩, ⟨⟨10, 10⟩, 2⟩, ⟨⟨0, 10⟩, 1⟩] ++
        ([⟨⟨0, 0⟩, 0⟩, ⟨⟨10, 0⟩, 3⟩, ⟨⟨10, 10⟩, 2⟩,
          ⟨⟨0, 10⟩, 1⟩] : List SearchPoint).take 2) := by
  have hEq : PruneInterior [⟨⟨0, 0⟩, 0⟩, ⟨⟨0, 10⟩, 1⟩, ⟨⟨10, 10⟩, 2⟩, ⟨⟨10, 0⟩, 3⟩,
      ⟨⟨5, 5⟩, 4⟩] 0 =
      (true, [⟨⟨0, 0⟩, 0⟩, ⟨⟨10, 0⟩, 3⟩, ⟨⟨10, 10⟩, 2⟩, ⟨⟨0, 10⟩, 1⟩]) := by
    norm_num [PruneInterior, lowerBuild, upperBuild, PartitionPoints, sortPoints,
      List.insertionSort, List.orderedInsert, spLe, spLt, partitionLoop, dedupKeep,
      BuildHalfHull, scanLoop, ghPush, Direction, Sign,
      GeoPoint.sub_longitude, GeoPoint.sub_latitude]
  exact ⟨hEq, c1_convexity _ 0 _ hEq⟩

theorem triWin_suffix (C : SearchPoint → SearchPoint → SearchPoint → Prop) :
    ∀ (l l' : List SearchPoint), triWin C (l ++ l') → triWin C l'
  | [], _, h => h
  | _ :: l, l', h => triWin_suffix C l l' (triWin_tail _ _ _ h)

theorem ghPush_of_ok (tol : ℚ) (f : Int) (i : SearchPoint) (s : List SearchPoint)
    (h : stackOK tol f (i :: s)) : ghPush tol f i s = (i :: s, false) := by
  cases s with
  | nil => rfl
  | cons b t =>
    cases t with
    | nil => rfl
    | cons m rest =>
      unfold ghPush
      rw [if_pos h.1]

theorem scan_nopop (tol : ℚ) (f : Int) :
    ∀ (input s : List SearchPoint),
      stackOK tol f (input.reverse ++ s) →
      scanLoop tol f s false input = (input.reverse ++ s, false)
  | [], s, _ => by simp [scanLoop]
  | i :: rest, s, h => by
    have h' : stackOK tol f (rest.reverse ++ (i :: s)) := by
      rw [show rest.reverse ++ (i :: s) = (i :: rest).reverse ++ s by simp]
      exact h
    have hok : stackOK tol f (i :: s) := triWin_suffix _ rest.reverse (i :: s) h'
    show scanLoop tol f (ghPush tol f i s).1 (false || (ghPush tol f i s).2) rest =
      ((i :: rest).reverse ++ s, false)
    rw [ghPush_of_ok tol f i s hok]
    show scanLoop tol f (i :: s) false rest = ((i :: rest).reverse ++ s, false)
    rw [scan_nopop tol f rest (i :: s) h']
    simp

theorem BuildHalfHull_nopop (L R : SearchPoint) (tol : ℚ) (input : List SearchPoint)
    (f : Int) (h : stackOK tol f ((input ++ [R]).reverse ++ [L])) :
    BuildHalfHull L R tol input f = (L :: (input ++ [R]), false) := by
  unfold BuildHalfHull
  rw [scan_nopop tol f (input ++ [R]) [L] h]
  simp

theorem geo_eq_of_comp {a b : GeoPoint} (h1 : a.longitude = b.longitude)
    (h2 : a.latitude = b.latitude) : a = b := by
  cases a; cases b; simp_all

theorem locLt_ne {p q : GeoPoint} (h : locLt p q) : p ≠ q := by
  intro he
  rw [he] at h
  exact locLt_irrefl q h

theorem dedupKeep_all : ∀ (M : List SearchPoint) (x : GeoPoint),
    List.Chain (fun p q : GeoPoint => p ≠ q) x (M.map SearchPoint.location) →
    dedupKeep x M = M
  | [], _, _ => rfl
  | i :: rest, x, h => by
    simp only [List.map_cons, List.chain_cons] at h
    have hc : x.longitude ≠ i.location.longitude ∨
        x.latitude ≠ i.location.latitude := by
      by_contra hcon
      push_neg at hcon
      exact h.1 (geo_eq_of_comp hcon.1 hcon.2)
    unfold dedupKeep
    rw [if_pos hc, dedupKeep_all rest i.location h.2]

theorem pairwise_locLt_of_sorted_ne (l : List SearchPoint)
    (hs : List.Sorted spLe l)
    (hne : List.Pairwise (fun a b : SearchPoint => a.location ≠ b.location) l) :
    List.Pairwise (fun a b : SearchPoint => locLt a.location b.location) l := by
  have hand := List.Pairwise.and hs hne
  exact hand.imp (fun h => locLt_of_le_of_ne h.1 h.2)

theorem eq_of_perm_of_pairwise_locLt (l₁ l₂ : List SearchPoint)
    (hp : l₁.Perm l₂)
    (h1 : List.Pairwise (fun a b : SearchPoint => locLt a.location b.location) l₁)
    (h2 : List.Pairwise (fun a b : SearchPoint => locLt a.location b.location) l₂) :
    l₁ = l₂ := by
  haveI : IsAntisymm SearchPoint (fun a b => locLt a.location b.location) :=
    ⟨fun a b hab hba => absurd hab (locLt_asymm hba)⟩
  exact List.eq_of_perm_of_sorted hp h1 h2

theorem getLastD_concat' {α : Type} (l : List α) (a d : α) :
    (l ++ [a]).getLastD d = a := by
  rw [List.getLastD_eq_getLast? d (l ++ [a]), List.getLast?_concat]
  rfl

theorem getLastD_cons_concat {α : Type} (a b d : α) (l : List α) :
    (a :: (l ++ [b])).getLastD d = b :=
  getLastD_concat' (a :: l) b d

theorem second_partition_fields (tol : ℚ) (L R : SearchPoint) (lm um : List SearchPoint)
    (hLR : locLt L.location R.location)
    (hlm_lt : List.Pairwise (fun a b : SearchPoint => locLt a.location b.location) lm)
    (hum_lt : List.Pairwise (fun a b : SearchPoint => locLt a.location b.location) um)
    (hL_lo : ∀ e ∈ lm, locLt L.location e.location)
    (hL_up : ∀ e ∈ um, locLt L.location e.location)
    (hlo_R : ∀ e ∈ lm, locLt e.location R.location)
    (hup_R : ∀ e ∈ um, locLt e.location R.location)
    (hlo_dir : ∀ e ∈ lm, ¬ (Direction L.location R.location e.location tol < 0))
    (hup_dir : ∀ e ∈ um, Direction L.location R.location e.location tol < 0) :
    PartitionPoints (L :: (lm ++ R :: um.reverse)) tol = ⟨L, R, um, lm⟩ := by
  have hcross : ∀ e ∈ lm, ∀ e' ∈ um, e.location ≠ e'.location := by
    intro e he e' he' hloc
    have h2 := hup_dir e' he'
    rw [← hloc] at h2
    exact hlo_dir e he h2
  have hne_lmum : List.Pairwise (fun a b : SearchPoint => a.location ≠ b.location)
      (lm ++ um) := by
    rw [List.pairwise_append]
    exact ⟨hlm_lt.imp (fun h => locLt_ne h), hum_lt.imp (fun h => locLt_ne h), hcross⟩
  have hperm_M : (sortPoints (lm ++ um)).Perm (lm ++ um) :=
    List.perm_insertionSort spLe (lm ++ um)
  have hne_M : List.Pairwise (fun a b : SearchPoint => a.location ≠ b.location)
      (sortPoints (lm ++ um)) :=
    (hperm_M.pairwise_iff (fun hxy => Ne.symm hxy)).mpr hne_lmum
  have hlt_M : List.Pairwise (fun a b : SearchPoint => locLt a.location b.location)
      (sortPoints (lm ++ um)) :=
    pairwise_locLt_of_sorted_ne _ (sortPoints_sorted _) hne_M
  have hmem_M : ∀ e ∈ sortPoints (lm ++ um), e ∈ lm ∨ e ∈ um := by
    intro e he
    exact List.mem_append.mp (hperm_M.mem_iff.mp he)
  have hlt_S : List.Pairwise (fun a b : SearchPoint => locLt a.location b.location)
      (L :: (sortPoints (lm ++ um) ++ [R])) := by
    rw [List.pairwise_cons]
    constructor
    · intro e he
      rcases List.mem_append.mp he with he | he
      · rcases hmem_M e he with hh | hh
        · exact hL_lo e hh
        · exact hL_up e hh
      · simp only [List.mem_singleton] at he
        rw [he]
        exact hLR
    · rw [List.pairwise_append]
      refine ⟨hlt_M, by simp, ?_⟩
      intro e he r hr
      simp only [List.mem_singleton] at hr
      rw [hr]
      rcases hmem_M e he with hh | hh
      · exact hlo_R e hh
      · exact hup_R e hh
  have hne_w : List.Pairwise (fun a b : SearchPoint => a.location ≠ b.location)
      (L :: (lm ++ R :: um.reverse)) := by
    rw [List.pairwise_cons]
    constructor
    · intro e he
      rcases List.mem_append.mp he with he | he
      · exact locLt_ne (hL_lo e he)
      · rcases List.mem_cons.mp he with rfl | he'
        · exact locLt_ne hLR
        · exact locLt_ne (hL_up e (List.mem_reverse.mp he'))
    · rw [List.pairwise_append]
      refine ⟨hlm_lt.imp (fun h => locLt_ne h), ?_, ?_⟩
      · rw [List.pairwise_cons]
        constructor
        · intro e he
          exact (locLt_ne (hup_R e (List.mem_reverse.mp he))).symm
        · rw [List.pairwise_reverse]
          exact hum_lt.imp (fun h => (locLt_ne h).symm)
      · intro e he r hr
        rcases List.mem_cons.mp hr with rfl | hr'
        · exact locLt_ne (hlo_R e he)
        · exact hcross e he r (List.mem_reverse.mp hr')
  have hperm_w : (sortPoints (L :: (lm ++ R :: um.reverse))).Perm
      (L :: (lm ++ R :: um.reverse)) := List.perm_insertionSort spLe _
  have hlt_sw : List.Pairwise (fun a b : SearchPoint => locLt a.location b.location)
      (sortPoints (L :: (lm ++ R :: um.reverse))) :=
    pairwise_locLt_of_sorted_ne _ (sortPoints_sorted _)
      ((hperm_w.pairwise_iff (fun hxy => Ne.symm hxy)).mpr hne_w)
  have hperm2 : (sortPoints (L :: (lm ++ R :: um.reverse))).Perm
      (L :: (sortPoints (lm ++ um) ++ [R])) := by
    refine hperm_w.trans (List.Perm.cons L ?_)
    have h1 : (R :: um.reverse).Perm (um ++ [R]) :=
      List.Perm.trans (List.Perm.cons R (List.reverse_perm um))
        (List.perm_append_singleton R um).symm
    have h2 : (lm ++ (R :: um.reverse)).Perm (lm ++ (um ++ [R])) :=
      List.Perm.append_left lm h1
    have h3 : lm ++ (um ++ [R]) = (lm ++ um) ++ [R] := by rw [List.append_assoc]
    rw [h3] at h2
    exact h2.trans (hperm_M.symm.append_right [R])
  have hsort_eq : sortPoints (L :: (lm ++ R :: um.reverse)) =
      L :: (sortPoints (lm ++ um) ++ [R]) :=
    eq_of_perm_of_pairwise_locLt _ _ hperm2 hlt_sw hlt_S
  have hchain_ne : List.Chain (fun p q : GeoPoint => p ≠ q) L.location
      ((sortPoints (lm ++ um)).map SearchPoint.location) := by
    have hsub : (L :: sortPoints (lm ++ um)).Sublist
        (L :: (sortPoints (lm ++ um) ++ [R])) :=
      List.cons_sublist_cons.mpr (List.sublist_append_left _ _)
    have hpwLM := hlt_S.sublist hsub
    have hmap : List.Pairwise locLt
        ((L :: sortPoints (lm ++ um)).map SearchPoint.location) :=
      (List.pairwise_map).mpr hpwLM
    rw [List.map_cons] at hmap
    exact List.Chain.imp (fun a b h => locLt_ne h)
      (List.chain_iff_pairwise.mpr hmap)
  have hdedup : dedupKeep L.location (sortPoints (lm ++ um)) =
      sortPoints (lm ++ um) := dedupKeep_all _ _ hchain_ne
  have hup_filter : (sortPoints (lm ++ um)).filter
      (fun e => decide (Direction L.location R.location e.location tol < 0)) = um := by
    refine eq_of_perm_of_pairwise_locLt _ _ ?_
      (hlt_M.sublist (List.filter_sublist _)) hum_lt
    have hpf := hperm_M.filter
      (fun e => decide (Direction L.location R.location e.location tol < 0))
    rw [List.filter_append] at hpf
    have hlmnil : lm.filter
        (fun e => decide (Direction L.location R.location e.location tol < 0)) = [] :=
      List.filter_eq_nil.mpr (fun a ha => by simp [hlo_dir a ha])
    have humall : um.filter
        (fun e => decide (Direction L.location R.location e.location tol < 0)) = um :=
      List.filter_eq_self.mpr (fun a ha => by simp [hup_dir a ha])
    rw [hlmnil, humall] at hpf
    simpa using hpf
  have hlo_filter : (sortPoints (lm ++ um)).filter
      (fun e => ! decide (Direction L.location R.location e.location tol < 0)) = lm := by
    refine eq_of_perm_of_pairwise_locLt _ _ ?_
      (hlt_M.sublist (List.filter_sublist _)) hlm_lt
    have hpf := hperm_M.filter
      (fun e => ! decide (Direction L.location R.location e.location tol < 0))
    rw [List.filter_append] at hpf
    have hlmall : lm.filter
        (fun e => ! decide (Direction L.location R.location e.location tol < 0)) = lm :=
      List.filter_eq_self.mpr (fun a ha => by simp [hlo_dir a ha])
    have humnil : um.filter
        (fun e => ! decide (Direction L.location R.location e.location tol < 0)) = [] :=
      List.filter_eq_nil.mpr (fun a ha => by simp [hup_dir a ha])
    rw [hlmall, humnil] at hpf
    simpa using hpf
  simp only [PartitionPoints]
  rw [hsort_eq]
  simp only [List.headI_cons, List.drop_succ_cons, List.drop_zero, List.dropLast_concat,
    getLastD_cons_concat]
  rw [partitionLoop_eq, hdedup, hup_filter, hlo_filter]

theorem PruneInterior_false_eq (raw_vector : List SearchPoint) (tolerance : ℚ)
    (h : (PruneInterior raw_vector tolerance).1 = false) :
    PruneInterior raw_vector tolerance = (false, raw_vector) := by
  by_cases h1 : raw_vector.length < 3
  · unfold PruneInterior
    rw [if_pos h1]
  · by_cases h2 : ((lowerBuild raw_vector tolerance).2 ||
      (upperBuild raw_vector tolerance).2) = true
    · exfalso
      unfold PruneInterior at h
      rw [if_neg h1, if_pos h2] at h
      simp at h
    · unfold PruneInterior
      rw [if_neg h1, if_neg h2]

theorem left_locLe_right (raw_vector : List SearchPoint) (tolerance : ℚ)
    (hlen : 2 ≤ raw_vector.length) :
    ¬ locLt (PartitionPoints raw_vector tolerance).right.location
      (PartitionPoints raw_vector tolerance).left.location := by
  have hS2 : 2 ≤ (sortPoints raw_vector).length := by
    rw [sortPoints_length]; exact hlen
  have hsplit := sorted_split (sortPoints raw_vector) hS2
  have hsorted := sortPoints_sorted raw_vector
  have hs' : List.Sorted spLe ((sortPoints raw_vector).headI ::
      ((((sortPoints raw_vector).drop 1).dropLast) ++
        [(sortPoints raw_vector).getLastD default])) := by
    rw [← hsplit]; exact hsorted
  exact (List.sorted_cons.mp hs').1 ((sortPoints raw_vector).getLastD default) (by simp)

/-- **C6**: `PruneInterior` is idempotent: on the sequence produced by a
first call — whether that call pruned anything or not — a second call
returns `false` and leaves the sequence unchanged. -/
theorem c6_idempotent (raw_vector : List SearchPoint) (tolerance : ℚ) :
    PruneInterior ((PruneInterior raw_vector tolerance).2) tolerance =
      (false, (PruneInterior raw_vector tolerance).2) := by
  cases hfl : (PruneInterior raw_vector tolerance).1 with
  | false =>
    have heq := PruneInterior_false_eq raw_vector tolerance hfl
    have h2 : (PruneInterior raw_vector tolerance).2 = raw_vector := by rw [heq]
    rw [h2, heq]
  | true =>
    obtain ⟨lm, um, hlm, hum, hres, hlm_sub, hum_sub⟩ :=
      prune_structure raw_vector tolerance hfl
    obtain ⟨_, hlen3, _⟩ := PruneInterior_true_eq raw_vector tolerance hfl
    have hlen : 2 ≤ raw_vector.length := by omega
    have hlR_ne : (PartitionPoints raw_vector tolerance).left.location ≠
        (PartitionPoints raw_vector tolerance).right.location :=
      left_ne_right_of_true raw_vector tolerance hfl
    have hLR : locLt (PartitionPoints raw_vector tolerance).left.location
        (PartitionPoints raw_vector tolerance).right.location :=
      locLt_of_le_of_ne (left_locLe_right raw_vector tolerance hlen) hlR_ne
    have hlm_kept : ∀ e ∈ lm, e ∈ keptOf raw_vector tolerance := fun e he =>
      (lower_sublist_kept raw_vector tolerance).mem (hlm_sub.mem he)
    have hum_kept : ∀ e ∈ um, e ∈ keptOf raw_vector tolerance := fun e he =>
      (upper_sublist_kept raw_vector tolerance).mem (hum_sub.mem he)
    have hpwkept : List.Pairwise locLt
        ((keptOf raw_vector tolerance).map SearchPoint.location) :=
      (keptOf_pairwise raw_vector tolerance hlen).of_cons
    have hlm_lt : List.Pairwise
        (fun a b : SearchPoint => locLt a.location b.location) lm :=
      (List.pairwise_map).mp (hpwkept.sublist
        ((hlm_sub.trans (lower_sublist_kept raw_vector tolerance)).map _))
    have hum_lt : List.Pairwise
        (fun a b : SearchPoint => locLt a.location b.location) um :=
      (List.pairwise_map).mp (hpwkept.sublist
        ((hum_sub.trans (upper_sublist_kept raw_vector tolerance)).map _))
    have hL_lo : ∀ e ∈ lm,
        locLt (PartitionPoints raw_vector tolerance).left.location e.location :=
      fun e he => List.rel_of_pairwise_cons
        (keptOf_pairwise raw_vector tolerance hlen)
        (List.mem_map_of_mem SearchPoint.location (hlm_kept e he))
    have hL_up : ∀ e ∈ um,
        locLt (PartitionPoints raw_vector tolerance).left.location e.location :=
      fun e he => List.rel_of_pairwise_cons
        (keptOf_pairwise raw_vector tolerance hlen)
        (List.mem_map_of_mem SearchPoint.location (hum_kept e he))
    have hlo_R : ∀ e ∈ lm,
        locLt e.location (PartitionPoints raw_vector tolerance).right.location :=
      fun e he => locLt_of_le_of_ne
        (keptOf_le_right raw_vector tolerance hlen e (hlm_kept e he))
        (lower_interior_ne_rightloc raw_vector tolerance hlen lm hlm hlm_sub e he)
    have hup_R : ∀ e ∈ um,
        locLt e.location (PartitionPoints raw_vector tolerance).right.location :=
      fun e he => locLt_of_le_of_ne
        (keptOf_le_right raw_vector tolerance hlen e (hum_kept e he))
        ((mem_upper_loc_ne raw_vector tolerance e (hum_sub.mem he)).2)
    have hlo_dir : ∀ e ∈ lm,
        ¬ (Direction (PartitionPoints raw_vector tolerance).left.location
          (PartitionPoints raw_vector tolerance).right.location e.location
          tolerance < 0) :=
      fun e he => (mem_lower_chain raw_vector tolerance e (hlm_sub.mem he)).1
    have hup_dir : ∀ e ∈ um,
        Direction (PartitionPoints raw_vector tolerance).left.location
          (PartitionPoints raw_vector tolerance).right.location e.location
          tolerance < 0 :=
      fun e he => (mem_upper_chain raw_vector tolerance e (hum_sub.mem he)).1
    have hPP := second_partition_fields tolerance
      (PartitionPoints raw_vector tolerance).left
      (PartitionPoints raw_vector tolerance).right lm um
      hLR hlm_lt hum_lt hL_lo hL_up hlo_R hup_R hlo_dir hup_dir
    have hstack_lo : stackOK tolerance 1
        ((lm ++ [(PartitionPoints raw_vector tolerance).right]).reverse ++
          [(PartitionPoints raw_vector tolerance).left]) := by
      have h := BuildHalfHull_stackOK (PartitionPoints raw_vector tolerance).left
        (PartitionPoints raw_vector tolerance).right tolerance
        (PartitionPoints raw_vector tolerance).lower_partition_points 1
      have h2 : (BuildHalfHull (PartitionPoints raw_vector tolerance).left
          (PartitionPoints raw_vector tolerance).right tolerance
          (PartitionPoints raw_vector tolerance).lower_partition_points 1).1 =
          (lowerBuild raw_vector tolerance).1 := rfl
      rw [h2, hlm, List.reverse_cons] at h
      exact h
    have hstack_up : stackOK tolerance (-1)
        ((um ++ [(PartitionPoints raw_vector tolerance).right]).reverse ++
          [(PartitionPoints raw_vector tolerance).left]) := by
      have h := BuildHalfHull_stackOK (PartitionPoints raw_vector tolerance).left
        (PartitionPoints raw_vector tolerance).right tolerance
        (PartitionPoints raw_vector tolerance).upper_partition_points (-1)
      have h2 : (BuildHalfHull (PartitionPoints raw_vector tolerance).left
          (PartitionPoints raw_vector tolerance).right tolerance
          (PartitionPoints raw_vector tolerance).upper_partition_points (-1)).1 =
          (upperBuild raw_vector tolerance).1 := rfl
      rw [h2, hum, List.reverse_cons] at h
      exact h
    rw [hres]
    have hlow2 : lowerBuild ((PartitionPoints raw_vector tolerance).left ::
        (lm ++ (PartitionPoints raw_vector tolerance).right :: um.reverse))
        tolerance =
        ((PartitionPoints raw_vector tolerance).left ::
          (lm ++ [(PartitionPoints raw_vector tolerance).right]), false) := by
      unfold lowerBuild
      rw [hPP]
      exact BuildHalfHull_nopop _ _ tolerance lm 1 hstack_lo
    have hup2 : upperBuild ((PartitionPoints raw_vector tolerance).left ::
        (lm ++ (PartitionPoints raw_vector tolerance).right :: um.reverse))
        tolerance =
        ((PartitionPoints raw_vector tolerance).left ::
          (um ++ [(PartitionPoints raw_vector tolerance).right]), false) := by
      unfold upperBuild
      rw [hPP]
      exact BuildHalfHull_nopop _ _ tolerance um (-1) hstack_up
    by_cases hl3 : ((PartitionPoints raw_vector tolerance).left ::
        (lm ++ (PartitionPoints raw_vector tolerance).right :: um.reverse)).length < 3
    · unfold PruneInterior
      rw [if_pos hl3]
    · unfold PruneInterior
      rw [if_neg hl3, hlow2, hup2]
      simp
